import Mathlib

/-!
Verification of the ELE-VibraSense signal-processing pipeline.

The TypeScript sources are embedded shallowly: JavaScript `number` arithmetic is
modelled as exact arithmetic (ℚ for the rational-only code paths, ℝ/ℂ for the
FFT, whose twiddle factors use cos/sin).  Arrays become lists or index
functions, in-place updates become explicit state passing, `for` loops become
folds over their index lists, and each loop-local mutable record becomes an
accumulator value.
-/

/-! ## Data model -/

/-- Embeds the `RawDataPoint` interface (types.ts): time plus tri-axial
acceleration in Gals. -/
structure RawDataPoint where
  time : ℚ
  ax : ℚ
  ay : ℚ
  az : ℚ
deriving DecidableEq

instance : Inhabited RawDataPoint := ⟨⟨0, 0, 0, 0⟩⟩

/-- Embeds the `ProcessedDataPoint` interface: `RawDataPoint` fields after DC
removal, extended with velocity `vz` (m/s) and displacement `sz` (m). -/
structure ProcessedDataPoint where
  time : ℚ
  ax : ℚ
  ay : ℚ
  az : ℚ
  vz : ℚ
  sz : ℚ
deriving DecidableEq

instance : Inhabited ProcessedDataPoint := ⟨⟨0, 0, 0, 0, 0, 0⟩⟩

/-- Embeds the `DataAxis` union type: three acceleration axes plus the
velocity and displacement axes. -/
inductive DataAxis
  | ax
  | ay
  | az
  | vz
  | sz
deriving DecidableEq

/-- Embeds the dynamic field access `data[i][axis]`. -/
def axisVal (p : ProcessedDataPoint) : DataAxis → ℚ
  | DataAxis.ax => p.ax
  | DataAxis.ay => p.ay
  | DataAxis.az => p.az
  | DataAxis.vz => p.vz
  | DataAxis.sz => p.sz

/-- Embeds the `Point` interface. -/
structure Point where
  time : ℚ
  value : ℚ
deriving DecidableEq

/-- Embeds the `LocalPeak` interface local to `calculateStats`. -/
structure LocalPeak where
  value : ℚ
  abs : ℚ
  time : ℚ
  idx : ℕ
deriving DecidableEq

/-- Embeds the `AnalysisStats` interface.  The source stores
`rms = Math.sqrt(sumSq / n)`; the square root is the only irrational
operation on this code path, so the record keeps the radicand `rmsSq`
(= `sumSq / n`, with `rms = Real.sqrt rmsSq`) to stay inside ℚ.  No claim
constrains the value of `rms` beyond it being 0 on the degenerate branches,
where the radicand is 0 as well. -/
structure AnalysisStats where
  peakVal : ℚ
  peakTime : ℚ
  rmsSq : ℚ
  pkPk : ℚ
  zeroPk : ℚ
  a95 : ℚ
  max0PkPoint : Option Point := none
  maxPkPkPair : Option (Point × Point) := none
deriving DecidableEq

/-- Embeds the `FFTResult` interface (frequency in Hz, one-sided magnitude). -/
structure FFTResult where
  frequency : ℝ
  magnitude : ℝ

/-! ## Integrator (`processVibrationData`) -/

/-- Embeds the cumulative trapezoidal-rule loop used twice in
`processVibrationData`: `out[0] = 0; out[i] = out[i-1] + (f[i-1] + f[i]) * 0.5 * dt`. -/
def cumTrapezoid (f : ℕ → ℚ) (dt : ℚ) : ℕ → ℚ
  | 0 => 0
  | i + 1 => cumTrapezoid f dt i + (f i + f (i + 1)) * (1/2) * dt

/-- Per-axis arithmetic mean used by `processVibrationData` step 1. -/
def meanOf (l : List ℚ) : ℚ := l.sum / l.length

/-- Embeds `processVibrationData` (Numerical Integration, Trapezoidal Rule):
remove per-axis DC offset, convert detrended `az` from Gals to m/s²
(divide by 100), then integrate twice. -/
def processVibrationData (rawData : List RawDataPoint) (fs : ℚ) :
    List ProcessedDataPoint :=
  if rawData.length = 0 then [] else
  let axMean := meanOf (rawData.map RawDataPoint.ax)
  let ayMean := meanOf (rawData.map RawDataPoint.ay)
  let azMean := meanOf (rawData.map RawDataPoint.az)
  let dt := 1 / fs
  let azMps2 : ℕ → ℚ := fun i => ((rawData.getD i default).az - azMean) / 100
  let vz := cumTrapezoid azMps2 dt
  let sz := cumTrapezoid vz dt
  (List.range rawData.length).map fun i =>
    { time := (rawData.getD i default).time
      ax := (rawData.getD i default).ax - axMean
      ay := (rawData.getD i default).ay - ayMean
      az := (rawData.getD i default).az - azMean
      vz := vz i
      sz := sz i }

/-! ## Statistics Engine (`calculateStats`) -/

/-- Accumulator of the first loop of `calculateStats`: running `sumSq`,
`overallMaxAbs` and `overallMaxPoint`. -/
structure ScanAcc where
  sumSq : ℚ
  maxAbs : ℚ
  maxPoint : Point
deriving DecidableEq

/-- One iteration of the first loop of `calculateStats`. -/
def scanStep (axis : DataAxis) (acc : ScanAcc) (p : ProcessedDataPoint) : ScanAcc :=
  let val := axisVal p axis
  if |val| > acc.maxAbs then ⟨acc.sumSq + val * val, |val|, ⟨p.time, val⟩⟩
  else ⟨acc.sumSq + val * val, acc.maxAbs, acc.maxPoint⟩

/-- Embeds the first loop of `calculateStats` (sum of squares and global
max-abs tracking, seeded with `0` and the point `(0, 0)`). -/
def overallScan (data : List ProcessedDataPoint) (axis : DataAxis) : ScanAcc :=
  data.foldl (scanStep axis) ⟨0, 0, ⟨0, 0⟩⟩

/-- The extracted `values` array of `calculateStats`. -/
def valsOf (data : List ProcessedDataPoint) (axis : DataAxis) : List ℚ :=
  data.map (fun p => axisVal p axis)

/-- Index view of the `values` array (out-of-range reads never occur). -/
def valAt (data : List ProcessedDataPoint) (axis : DataAxis) (i : ℕ) : ℚ :=
  (valsOf data axis).getD i 0

/-- Embeds the argmax loop of the `findLocalPeak` helper: scan the index
range, keeping the first index of strictly maximal `Math.abs(values[i])`.
The source seeds `maxAbs = -1`, so the first index always wins, which the
`Option` accumulator mirrors; `none` is returned exactly when the range is
empty (`startIdx >= endIdx`). -/
def pickPeakIdx (v : ℕ → ℚ) (startIdx endIdx : ℕ) : Option ℕ :=
  (List.range' startIdx (endIdx - startIdx)).foldl
    (fun acc i =>
      match acc with
      | none => some i
      | some b => if |v i| > |v b| then some i else some b)
    none

/-- Embeds `findLocalPeak` of `calculateStats`. -/
def findLocalPeak (data : List ProcessedDataPoint) (axis : DataAxis)
    (startIdx endIdx : ℕ) : Option LocalPeak :=
  match pickPeakIdx (valAt data axis) startIdx endIdx with
  | none => none
  | some b =>
      some { value := valAt data axis b
             abs := |valAt data axis b|
             time := (data.getD b default).time
             idx := b }

/-- The zero-crossing test of the scan loop of `calculateStats`:
`(v1 >= 0 && v2 < 0) || (v1 < 0 && v2 >= 0)`. -/
def isCrossing (v1 v2 : ℚ) : Prop := (0 ≤ v1 ∧ v2 < 0) ∨ (v1 < 0 ∧ 0 ≤ v2)

instance (v1 v2 : ℚ) : Decidable (isCrossing v1 v2) := by
  unfold isCrossing
  infer_instance

/-- One iteration of the zero-crossing scan loop of `calculateStats`: the
state is the pair of the current `lastZC` and the peaks pushed so far. -/
def zcScanStep (data : List ProcessedDataPoint) (axis : DataAxis)
    (acc : ℕ × List LocalPeak) (i : ℕ) : ℕ × List LocalPeak :=
  if isCrossing (valAt data axis i) (valAt data axis (i + 1)) then
    match findLocalPeak data axis acc.1 (i + 1) with
    | some peak => (i + 1, acc.2 ++ [peak])
    | none => (i + 1, acc.2)
  else acc

/-- The full list of local peaks of `calculateStats`: scan loop variable `i`
runs from `0` to `data.length - 2`, then the final segment
`findLocalPeak(lastZC, data.length)` is processed. -/
def zcPeaks (data : List ProcessedDataPoint) (axis : DataAxis) : List LocalPeak :=
  let scan := (List.range (data.length - 1)).foldl (zcScanStep data axis) (0, [])
  scan.2 ++
    match findLocalPeak data axis scan.1 data.length with
    | some peak => [peak]
    | none => []

/-- The opposite-sign test on adjacent local peaks. -/
def oppositeSigns (p1 p2 : LocalPeak) : Prop :=
  (0 < p1.value ∧ p2.value < 0) ∨ (p1.value < 0 ∧ 0 < p2.value)

instance (p1 p2 : LocalPeak) : Decidable (oppositeSigns p1 p2) := by
  unfold oppositeSigns
  infer_instance

/-- Embeds the pairing loop of `calculateStats`: for each pair of adjacent
local peaks of opposite signs, record `p1.abs + p2.abs` with the two peaks. -/
def adjacentPairs : List LocalPeak → List (ℚ × LocalPeak × LocalPeak)
  | p1 :: p2 :: rest =>
    if oppositeSigns p1 p2 then
      (p1.abs + p2.abs, p1, p2) :: adjacentPairs (p2 :: rest)
    else adjacentPairs (p2 :: rest)
  | _ => []

/-- The `pkPkValues` array of `calculateStats`. -/
def pkPkValuesOf (data : List ProcessedDataPoint) (axis : DataAxis) : List ℚ :=
  (adjacentPairs (zcPeaks data axis)).map (fun item => item.1)

/-- Embeds the time-ordering of the two peaks of the maximal pair. -/
def orderPair (p1 p2 : LocalPeak) : Point × Point :=
  if p1.time < p2.time then (⟨p1.time, p1.value⟩, ⟨p2.time, p2.value⟩)
  else (⟨p2.time, p2.value⟩, ⟨p1.time, p1.value⟩)

/-- Embeds the Max Pk-Pk loop of `calculateStats`: fold over the pair list,
keeping the strictly largest pair value (seed 0) and its time-ordered pair. -/
def maxPkPkFold (pairs : List (ℚ × LocalPeak × LocalPeak)) :
    ℚ × Option (Point × Point) :=
  pairs.foldl
    (fun acc item =>
      if item.1 > acc.1 then (item.1, some (orderPair item.2.1 item.2.2)) else acc)
    (0, none)

/-- The A95 index: `Math.floor(pkPkValues.length * 0.95)`. -/
def index95 (count : ℕ) : ℕ := Nat.floor ((count : ℚ) * (95 / 100))

/-- Embeds `calculateStats` (GB/T 24474 / ISO 18738 Appendix A metrics). -/
def calculateStats (data : List ProcessedDataPoint) (axis : DataAxis) :
    AnalysisStats :=
  if data.length = 0 then { peakVal := 0, peakTime := 0, rmsSq := 0, pkPk := 0, zeroPk := 0, a95 := 0 }
  else
    let scan := overallScan data axis
    let rmsSq := scan.sumSq / data.length
    if axis = DataAxis.vz ∨ axis = DataAxis.sz then
      -- fallback for non-vibration axes: pkPk = max - min over the values,
      -- seeded from the head (the source seeds with ±Infinity; the branch
      -- only runs on non-empty data, where the two agree)
      let mn := ((valsOf data axis).tail).foldl min ((valsOf data axis).headI)
      let mx := ((valsOf data axis).tail).foldl max ((valsOf data axis).headI)
      { peakVal := scan.maxAbs, peakTime := scan.maxPoint.time, rmsSq := rmsSq,
        pkPk := mx - mn, zeroPk := scan.maxAbs, a95 := scan.maxAbs,
        max0PkPoint := some scan.maxPoint }
    else
      let pairs := adjacentPairs (zcPeaks data axis)
      let pkPkValues := pairs.map (fun item => item.1)
      if pkPkValues.length = 0 then
        { peakVal := scan.maxAbs, peakTime := scan.maxPoint.time, rmsSq := rmsSq,
          pkPk := 0, zeroPk := scan.maxAbs, a95 := 0 }
      else
        let mx := maxPkPkFold pairs
        -- `pkPkValues.sort((a, b) => a - b)`: an ascending sort of the pair
        -- values (which sorting algorithm the engine uses is unobservable)
        let sorted := pkPkValues.insertionSort (fun a b => a ≤ b)
        { peakVal := scan.maxAbs, peakTime := scan.maxPoint.time, rmsSq := rmsSq,
          pkPk := mx.1, zeroPk := scan.maxAbs,
          a95 := sorted.getD (min (index95 pkPkValues.length) (pkPkValues.length - 1)) 0,
          max0PkPoint := some scan.maxPoint, maxPkPkPair := mx.2 }

/-- A square wave of amplitude `A` whose sign alternates every `k` samples
(sample index `j`), used to state the synthetic-signal claim. -/
def squareWave (A : ℚ) (k j : ℕ) : ℚ := if (j / k) % 2 = 0 then A else -A

/-- A processed series of length `L` carrying `squareWave A k` on the `az`
axis, with `time = j` and all other fields 0. -/
def squareSeries (A : ℚ) (k L : ℕ) : List ProcessedDataPoint :=
  (List.range L).map fun (j : ℕ) =>
    { time := (j : ℚ), ax := 0, ay := 0, az := squareWave A k j, vz := 0, sz := 0 }

/-- The expected local peak of the `s`-th constant-sign segment of the
square wave (amplitude `A > 0`): the segment's first sample `s*k`. -/
def segPeak (A : ℚ) (k s : ℕ) : LocalPeak :=
  { value := squareWave A k (s * k), abs := A, time := ((s * k : ℕ) : ℚ), idx := s * k }

/-! ## FFT Engine (`calculateFFT`)

The source keeps two `Float64Array`s `real`/`imag` that are always read and
written together with the complex product/sum/difference formulas, so the
embedding models the pair as one array of ℂ, represented as a total index
function updated functionally. -/

/-- Embeds the `reverseBits` helper loop (`y = (y << 1) | (x & 1); x >>= 1`),
with the loop counter made explicit as structural recursion. -/
def reverseBitsAux : ℕ → ℕ → ℕ → ℕ
  | 0, y, _ => y
  | b + 1, y, x => reverseBitsAux b (2 * y + x % 2) (x / 2)

/-- Embeds `reverseBits(x, bits)`. -/
def reverseBits (x bits : ℕ) : ℕ := reverseBitsAux bits 0 x

/-- A functional array swap of positions `a` and `b` (the destructuring swap
of the bit-reversal loop). -/
def swapF (f : ℕ → ℂ) (a b : ℕ) : ℕ → ℂ :=
  fun j => if j = a then f b else if j = b then f a else f j

/-- Embeds the bit-reversal permutation loop of `calculateFFT`: for each
`i < N`, swap positions `i` and `reverseBits(i, bits)` when the latter is
larger. -/
def bitReversePass (bits N : ℕ) (f : ℕ → ℂ) : ℕ → ℂ :=
  (List.range N).foldl
    (fun g i => if reverseBits i bits > i then swapF g i (reverseBits i bits) else g)
    f

/-- Embeds the innermost butterfly loop of `calculateFFT` for one block
starting at `k`: iteration `j` (counted by remaining fuel, starting from the
twiddle accumulator `w`) computes `t = w * f[k+j+m2]`, `u = f[k+j]` and
writes `u + t` and `u - t`; the twiddle update `w := w * wm` is the source's
complex multiplication written on ℂ. -/
noncomputable def innerBfly (wm : ℂ) (k m2 : ℕ) : ℕ → ℕ → ℂ → (ℕ → ℂ) → (ℕ → ℂ)
  | 0, _, _, f => f
  | c + 1, j, w, f =>
      let t := w * f (k + j + m2)
      let u := f (k + j)
      innerBfly wm k m2 c (j + 1) (w * wm)
        (fun idx => if idx = k + j then u + t else if idx = k + j + m2 then u - t else f idx)

/-- Embeds the middle loop of a butterfly stage (`for k = 0; k < N; k += m`):
`b` counts the remaining blocks, `k` is the current block start. -/
noncomputable def stageBlocks (wm : ℂ) (m m2 : ℕ) : ℕ → ℕ → (ℕ → ℂ) → (ℕ → ℂ)
  | 0, _, f => f
  | b + 1, k, f => stageBlocks wm m m2 b (k + m) (innerBfly wm k m2 m2 0 1 f)

/-- Embeds the outer stage loop of `calculateFFT` (`for s = 1; s <= bits; s++`):
`c` counts the remaining stages; at stage `s`, `m = 2^s`, `m2 = m/2` and the
stage twiddle base is `wm = (cos(π/m2), -sin(π/m2))`. -/
noncomputable def fftStages (N : ℕ) : ℕ → ℕ → (ℕ → ℂ) → (ℕ → ℂ)
  | 0, _, f => f
  | c + 1, s, f =>
      let m := 2 ^ s
      let m2 : ℕ := m / 2
      let wm : ℂ := ⟨Real.cos (Real.pi / (m2 : ℝ)), -Real.sin (Real.pi / (m2 : ℝ))⟩
      fftStages N c (s + 1) (stageBlocks wm m m2 (N / m) 0 f)

/-- The initial complex array of `calculateFFT`: the first `N` input samples
with zero imaginary part (the arrays have length `N`, reads beyond `N` do not
occur and are mapped to 0). -/
def fftInit (data : List ℝ) (N : ℕ) : ℕ → ℂ :=
  fun i => if i < N then ((data.getD i 0 : ℝ) : ℂ) else 0

/-- The in-place FFT computation of `calculateFFT` before the magnitude and
band-filtering output loop: `p = floor(log2 n)`, `N = 2^p`, bit-reversal
permutation followed by `p` butterfly stages. -/
noncomputable def fftArray (data : List ℝ) : ℕ → ℂ :=
  let p := Nat.log2 data.length
  let N := 2 ^ p
  fftStages N p 1 (bitReversePass p N (fftInit data N))

/-- The root-of-unity kernel `exp(-2πi·r/M)` used to state the butterfly
stage invariant relating `fftStages` to the reference DFT. -/
noncomputable def omegaC (M r : ℕ) : ℂ :=
  Complex.exp (-(2 * (Real.pi : ℂ) * Complex.I) * (r : ℂ) / (M : ℂ))

/-- The textbook discrete Fourier transform used as the reference:
`X t = Σ_j x j * exp(-2πi·t·j/N)`. -/
noncomputable def dft (x : ℕ → ℂ) (N t : ℕ) : ℂ :=
  ∑ j ∈ Finset.range N,
    x j * Complex.exp (-(2 * (Real.pi : ℂ) * Complex.I) * (t : ℂ) * (j : ℂ) / (N : ℂ))

/-- Embeds `calculateFFT`: FFT of the first `2^floor(log2 n)` samples, then
one output point per bin `i < N/2` whose frequency `i*fs/N` lies in
`[1, 200]` Hz, with one-sided magnitude `sqrt(re² + im²)/N`, doubled except
for DC. -/
noncomputable def calculateFFT (data : List ℝ) (fs : ℝ) : List FFTResult :=
  if data.length = 0 then [] else
  let N := 2 ^ Nat.log2 data.length
  (List.range (N / 2)).filterMap fun (i : ℕ) =>
    let freq := (i : ℝ) * fs / (N : ℝ)
    if 1 ≤ freq ∧ freq ≤ 200 then
      some { frequency := freq
             magnitude :=
               let mag := Real.sqrt
                 ((fftArray data i).re * (fftArray data i).re +
                   (fftArray data i).im * (fftArray data i).im) / (N : ℝ)
               if 0 < i then 2 * mag else mag }
    else none

/-! ## Downsampler (`downsampleData`) -/

/-- Embeds the per-bucket argmax loop of `downsampleData`: scan `j` from `i`
to `endIdx`, tracking the first index maximizing
`Math.max(|ax|, |ay|, |az|)`, seeded with `maxAbs = -1`, `maxIdx = i`. -/
def bucketPeakIdx (data : List ProcessedDataPoint) (i endIdx : ℕ) : ℕ :=
  ((List.range' i (endIdx - i)).foldl
    (fun (acc : ℚ × ℕ) j =>
      let val := max |(data.getD j default).ax|
        (max |(data.getD j default).ay| |(data.getD j default).az|)
      if val > acc.1 then (val, j) else acc)
    (-1, i)).2

/-- The points pushed for one bucket `[i, endIdx)`: always the first point of
the bucket, then the peak point if it is a different index. -/
def bucketEmit (data : List ProcessedDataPoint) (i endIdx : ℕ) :
    List ProcessedDataPoint :=
  data.getD i default ::
    (if bucketPeakIdx data i endIdx ≠ i then [data.getD (bucketPeakIdx data i endIdx) default]
     else [])

/-- The loop-head values of `for (i = 0; i < len; i += step)`:
`0, step, 2·step, …`, of which there are `⌈len/step⌉`. -/
def bucketStarts (len step : ℕ) : List ℕ :=
  List.range' 0 ((len + step - 1) / step) step

/-- Embeds `downsampleData`: identity when the series is short enough,
otherwise min-max bucket aggregation into `floor(targetCount/2)` buckets of
`step = floor(len/buckets)` samples.  When `buckets = 0` (`targetCount < 2`)
the JavaScript `step` is `Math.floor(len/0) = Infinity` and the loop body
runs exactly once with the bucket covering the whole array, which the second
branch spells out. -/
def downsampleData (data : List ProcessedDataPoint) (targetCount : ℕ) :
    List ProcessedDataPoint :=
  if data.length ≤ targetCount then data else
  let buckets := targetCount / 2
  if buckets = 0 then bucketEmit data 0 data.length
  else
    let step := data.length / buckets
    (bucketStarts data.length step).flatMap fun i =>
      bucketEmit data i (min (i + step) data.length)

/-- The indices pushed for one bucket (proof companion of `bucketEmit`). -/
def bucketEmitIdx (data : List ProcessedDataPoint) (i endIdx : ℕ) : List ℕ :=
  i :: (if bucketPeakIdx data i endIdx ≠ i then [bucketPeakIdx data i endIdx] else [])

/-- The input indices of the points emitted by `downsampleData`, branch for
branch (used to state the order/duplication invariant). -/
def downsampleIdx (data : List ProcessedDataPoint) (targetCount : ℕ) : List ℕ :=
  if data.length ≤ targetCount then List.range data.length else
  let buckets := targetCount / 2
  if buckets = 0 then bucketEmitIdx data 0 data.length
  else
    let step := data.length / buckets
    (bucketStarts data.length step).flatMap fun i =>
      bucketEmitIdx data i (min (i + step) data.length)

/-- A seven-sample series whose per-sample `max(|ax|,|ay|,|az|)` is strictly
increasing, used to exhibit a fixed point of `downsampleData` longer than the
target count. -/
def sevenSamples : List ProcessedDataPoint :=
  [⟨0, 0, 0, 1, 0, 0⟩, ⟨1, 0, 0, 2, 0, 0⟩, ⟨2, 0, 0, 3, 0, 0⟩, ⟨3, 0, 0, 4, 0, 0⟩,
    ⟨4, 0, 0, 5, 0, 0⟩, ⟨5, 0, 0, 6, 0, 0⟩, ⟨6, 0, 0, 7, 0, 0⟩]

/-! ## Pipeline wiring (App.tsx useEffect) -/

/-- The axis subsets a filter run can target (from the `FilterConfig` usage:
the `targetAxes` field takes the values `'all'` and `'z-only'`). -/
inductive TargetAxes
  | all
  | zOnly
deriving DecidableEq

/-- The `FilterConfig` record as used by the pipeline (field names and types
taken from the `filterConfig` state initialisation in App.tsx; the interface
declaration itself lives in types.ts). -/
structure FilterConfig where
  enabled : Bool
  highPassFreq : ℚ
  lowPassFreq : ℚ
  isStandardWeighting : Bool
  targetAxes : TargetAxes
deriving DecidableEq

/-- Embeds the data-selection step of the pipeline `useEffect` in App.tsx:
`dataToProcess = rawData`, replaced by `applyFilters(rawData, SAMPLE_RATE,
filterConfig)` only when `filterConfig.enabled`.  The body of `applyFilters`
(utils/dspUtils.ts) is outside the analyzed sources, so the filter engine is
passed in as an explicit function argument. -/
def pipelineDataToProcess
    (applyF : List RawDataPoint → ℚ → FilterConfig → List RawDataPoint)
    (rawData : List RawDataPoint) (fs : ℚ) (cfg : FilterConfig) :
    List RawDataPoint :=
  if cfg.enabled then applyF rawData fs cfg else rawData

/-- The processed series the pipeline `useEffect` stores:
`processVibrationData(dataToProcess, SAMPLE_RATE)`. -/
def pipelineProcessed
    (applyF : List RawDataPoint → ℚ → FilterConfig → List RawDataPoint)
    (rawData : List RawDataPoint) (fs : ℚ) (cfg : FilterConfig) :
    List ProcessedDataPoint :=
  processVibrationData (pipelineDataToProcess applyF rawData fs cfg) fs

/-! # Theorems -/

/-! ## Indexed access into assembled lists -/

theorem getD_range_map {α : Type} [Inhabited α] (n : ℕ) (f : ℕ → α) (i : ℕ)
    (hi : i < n) : ((List.range n).map f).getD i default = f i := by
  rw [List.getD_eq_getElem?_getD]
  rw [List.getElem?_map]
  rw [List.getElem?_range hi]
  rfl

theorem processVibrationData_length (rawData : List RawDataPoint) (fs : ℚ) :
    (processVibrationData rawData fs).length = rawData.length := by
  unfold processVibrationData
  by_cases h : rawData.length = 0
  · simp [h]
  · simp [h]

theorem processVibrationData_getD (rawData : List RawDataPoint) (fs : ℚ) (i : ℕ)
    (hi : i < rawData.length) :
    (processVibrationData rawData fs).getD i default =
      { time := (rawData.getD i default).time
        ax := (rawData.getD i default).ax - meanOf (rawData.map RawDataPoint.ax)
        ay := (rawData.getD i default).ay - meanOf (rawData.map RawDataPoint.ay)
        az := (rawData.getD i default).az - meanOf (rawData.map RawDataPoint.az)
        vz := cumTrapezoid
          (fun j => ((rawData.getD j default).az - meanOf (rawData.map RawDataPoint.az)) / 100)
          (1 / fs) i
        sz := cumTrapezoid
          (cumTrapezoid
            (fun j => ((rawData.getD j default).az - meanOf (rawData.map RawDataPoint.az)) / 100)
            (1 / fs))
          (1 / fs) i } := by
  have hn : ¬ rawData.length = 0 := by omega
  unfold processVibrationData
  simp only [if_neg hn]
  exact getD_range_map _ _ i hi

/-- C1: on a non-empty series at sample rate `fs`, `processVibrationData`
subtracts the per-axis mean from ax, ay, az, converts the mean-subtracted az
from Gals to m/s² (divide by 100), and integrates twice by the trapezoidal
rule with `dt = 1/fs`, starting both integrals at 0; length and per-index
times are preserved. -/
theorem processVibrationData_spec (rawData : List RawDataPoint) (fs : ℚ)
    (hne : rawData ≠ []) (hfs : 0 < fs) :
    (processVibrationData rawData fs).length = rawData.length ∧
    (∀ i, i < rawData.length →
      ((processVibrationData rawData fs).getD i default).time =
        (rawData.getD i default).time ∧
      ((processVibrationData rawData fs).getD i default).ax =
        (rawData.getD i default).ax - meanOf (rawData.map RawDataPoint.ax) ∧
      ((processVibrationData rawData fs).getD i default).ay =
        (rawData.getD i default).ay - meanOf (rawData.map RawDataPoint.ay) ∧
      ((processVibrationData rawData fs).getD i default).az =
        (rawData.getD i default).az - meanOf (rawData.map RawDataPoint.az)) ∧
    ((processVibrationData rawData fs).getD 0 default).vz = 0 ∧
    ((processVibrationData rawData fs).getD 0 default).sz = 0 ∧
    (∀ i, i + 1 < rawData.length →
      ((processVibrationData rawData fs).getD (i + 1) default).vz =
        ((processVibrationData rawData fs).getD i default).vz +
          (((rawData.getD i default).az - meanOf (rawData.map RawDataPoint.az)) / 100 +
            ((rawData.getD (i + 1) default).az - meanOf (rawData.map RawDataPoint.az)) / 100) *
            (1/2) * (1 / fs)) ∧
    (∀ i, i + 1 < rawData.length →
      ((processVibrationData rawData fs).getD (i + 1) default).sz =
        ((processVibrationData rawData fs).getD i default).sz +
          (((processVibrationData rawData fs).getD i default).vz +
            ((processVibrationData rawData fs).getD (i + 1) default).vz) *
            (1/2) * (1 / fs)) := by
  have hlen : 0 < rawData.length := List.length_pos.mpr hne
  refine ⟨processVibrationData_length rawData fs, ?_, ?_, ?_, ?_, ?_⟩
  · intro i hi
    rw [processVibrationData_getD rawData fs i hi]
    exact ⟨rfl, rfl, rfl, rfl⟩
  · rw [processVibrationData_getD rawData fs 0 hlen]
    rfl
  · rw [processVibrationData_getD rawData fs 0 hlen]
    rfl
  · intro i hi
    rw [processVibrationData_getD rawData fs i (by omega),
      processVibrationData_getD rawData fs (i + 1) hi]
    rfl
  · intro i hi
    rw [processVibrationData_getD rawData fs i (by omega),
      processVibrationData_getD rawData fs (i + 1) hi]
    rfl

/-- Concrete instantiation of `processVibrationData_spec`. -/
theorem processVibrationData_spec_witness :
    ([⟨0, 1, 2, 300⟩, ⟨1/2, 3, 4, 100⟩] : List RawDataPoint) ≠ [] ∧ (0 : ℚ) < 2 ∧
    ((processVibrationData [⟨0, 1, 2, 300⟩, ⟨1/2, 3, 4, 100⟩] 2).getD 1 default).vz =
      ((processVibrationData [⟨0, 1, 2, 300⟩, ⟨1/2, 3, 4, 100⟩] 2).getD 0 default).vz +
        (((([⟨0, 1, 2, 300⟩, ⟨1/2, 3, 4, 100⟩] : List RawDataPoint).getD 0 default).az -
            meanOf (([⟨0, 1, 2, 300⟩, ⟨1/2, 3, 4, 100⟩] : List RawDataPoint).map RawDataPoint.az)) / 100 +
          ((([⟨0, 1, 2, 300⟩, ⟨1/2, 3, 4, 100⟩] : List RawDataPoint).getD 1 default).az -
            meanOf (([⟨0, 1, 2, 300⟩, ⟨1/2, 3, 4, 100⟩] : List RawDataPoint).map RawDataPoint.az)) / 100) *
          (1/2) * (1 / 2) := by
  refine ⟨by decide, by norm_num, ?_⟩
  exact (processVibrationData_spec [⟨0, 1, 2, 300⟩, ⟨1/2, 3, 4, 100⟩] 2 (by decide)
    (by norm_num)).2.2.2.2.1 0 (by decide)

/-! ## The overall max-abs scan of `calculateStats` -/

theorem scanStep_maxAbs (axis : DataAxis) (acc : ScanAcc) (p : ProcessedDataPoint) :
    (scanStep axis acc p).maxAbs = max acc.maxAbs |axisVal p axis| := by
  unfold scanStep
  rcases lt_or_le acc.maxAbs |axisVal p axis| with h | h
  · rw [if_pos h, max_eq_right h.le]
  · rw [if_neg (not_lt.mpr h), max_eq_left h]

theorem foldl_scanStep_maxAbs (data : List ProcessedDataPoint) (axis : DataAxis) :
    ∀ acc : ScanAcc,
      (data.foldl (scanStep axis) acc).maxAbs =
        data.foldl (fun m p => max m |axisVal p axis|) acc.maxAbs := by
  induction data with
  | nil => intro acc; rfl
  | cons p rest ih =>
      intro acc
      simp only [List.foldl_cons]
      rw [ih, scanStep_maxAbs]

theorem foldl_max_init_le (l : List ProcessedDataPoint) (axis : DataAxis) :
    ∀ a : ℚ, a ≤ l.foldl (fun m p => max m |axisVal p axis|) a := by
  induction l with
  | nil => intro a; exact le_refl a
  | cons p rest ih =>
      intro a
      exact le_trans (le_max_left a |axisVal p axis|) (ih _)

theorem foldl_max_mem_le (l : List ProcessedDataPoint) (axis : DataAxis) :
    ∀ a : ℚ, ∀ q ∈ l, |axisVal q axis| ≤ l.foldl (fun m p => max m |axisVal p axis|) a := by
  induction l with
  | nil => intro a q hq; exact absurd hq (List.not_mem_nil q)
  | cons p rest ih =>
      intro a q hq
      rcases List.mem_cons.mp hq with h | h
      · subst h
        exact le_trans (le_max_right a |axisVal q axis|) (foldl_max_init_le rest axis _)
      · exact ih _ q h

/-- The max-point tracking: the final accumulator is either untouched or
records the absolute value, value and time of some sample of the list. -/
theorem foldl_scanStep_tracking (data : List ProcessedDataPoint) (axis : DataAxis) :
    ∀ acc : ScanAcc,
      ((data.foldl (scanStep axis) acc).maxAbs = acc.maxAbs ∧
        (data.foldl (scanStep axis) acc).maxPoint = acc.maxPoint) ∨
      ∃ p ∈ data,
        (data.foldl (scanStep axis) acc).maxAbs = |axisVal p axis| ∧
        (data.foldl (scanStep axis) acc).maxPoint = ⟨p.time, axisVal p axis⟩ := by
  induction data with
  | nil => intro acc; exact Or.inl ⟨rfl, rfl⟩
  | cons p rest ih =>
      intro acc
      simp only [List.foldl_cons]
      by_cases h : |axisVal p axis| > acc.maxAbs
      · rcases ih (scanStep axis acc p) with ⟨h1, h2⟩ | ⟨q, hq, h1, h2⟩
        · refine Or.inr ⟨p, List.mem_cons_self p rest, ?_, ?_⟩
          · rw [h1]; unfold scanStep; rw [if_pos h]
          · rw [h2]; unfold scanStep; rw [if_pos h]
        · exact Or.inr ⟨q, List.mem_cons_of_mem p hq, h1, h2⟩
      · rcases ih (scanStep axis acc p) with ⟨h1, h2⟩ | ⟨q, hq, h1, h2⟩
        · refine Or.inl ⟨?_, ?_⟩
          · rw [h1]; unfold scanStep; rw [if_neg h]
          · rw [h2]; unfold scanStep; rw [if_neg h]
        · exact Or.inr ⟨q, List.mem_cons_of_mem p hq, h1, h2⟩

theorem overallScan_maxAbs_nonneg (data : List ProcessedDataPoint) (axis : DataAxis) :
    0 ≤ (overallScan data axis).maxAbs := by
  unfold overallScan
  rw [foldl_scanStep_maxAbs]
  exact foldl_max_init_le data axis 0

theorem overallScan_maxAbs_ge (data : List ProcessedDataPoint) (axis : DataAxis)
    (p : ProcessedDataPoint) (hp : p ∈ data) :
    |axisVal p axis| ≤ (overallScan data axis).maxAbs := by
  unfold overallScan
  rw [foldl_scanStep_maxAbs]
  exact foldl_max_mem_le data axis 0 p hp

/-- On a non-empty list the scan's maximum is attained, with the recorded
point's time and value taken from an attaining sample. -/
theorem overallScan_attained (data : List ProcessedDataPoint) (axis : DataAxis)
    (hne : data ≠ []) :
    ∃ p ∈ data,
      (overallScan data axis).maxAbs = |axisVal p axis| ∧
      (overallScan data axis).maxPoint.time = p.time ∨
      ((overallScan data axis).maxAbs = 0 ∧ (overallScan data axis).maxPoint.time = 0) := by
  rcases foldl_scanStep_tracking data axis ⟨0, 0, ⟨0, 0⟩⟩ with ⟨h1, h2⟩ | ⟨p, hp, h1, h2⟩
  · rcases List.exists_mem_of_ne_nil data hne with ⟨p, hp⟩
    exact ⟨p, hp, Or.inr ⟨h1, by rw [show (overallScan data axis).maxPoint = ⟨0, 0⟩ from h2]⟩⟩
  · exact ⟨p, hp, Or.inl ⟨h1, by rw [show (overallScan data axis).maxPoint =
      ⟨p.time, axisVal p axis⟩ from h2]⟩⟩

/-- All three return branches of `calculateStats` on non-empty data take
`peakVal`, `zeroPk` from `overallMaxAbs` and `peakTime` from
`overallMaxPoint.time`. -/
theorem calculateStats_peak_fields (data : List ProcessedDataPoint) (axis : DataAxis)
    (hn : data.length ≠ 0) :
    (calculateStats data axis).peakVal = (overallScan data axis).maxAbs ∧
    (calculateStats data axis).zeroPk = (overallScan data axis).maxAbs ∧
    (calculateStats data axis).peakTime = (overallScan data axis).maxPoint.time := by
  unfold calculateStats
  rw [if_neg hn]
  by_cases hax : axis = DataAxis.vz ∨ axis = DataAxis.sz
  · simp only [if_pos hax]
    refine ⟨?_, ?_, ?_⟩ <;> trivial
  · simp only [if_neg hax]
    by_cases hp : ((adjacentPairs (zcPeaks data axis)).map (fun item => item.1)).length = 0
    · simp only [if_pos hp]
      refine ⟨?_, ?_, ?_⟩ <;> trivial
    · simp only [if_neg hp]
      refine ⟨?_, ?_, ?_⟩ <;> trivial

/-- C10 (amended): on non-empty data, `peakVal = zeroPk` and both equal the
maximum absolute sample value of the selected axis, and whenever that
maximum is positive, `peakTime` is the time of a sample attaining it.  (The
unamended claim fails when the selected axis is identically zero: the
tracked point keeps its initial time 0.) -/
theorem calculateStats_peak_spec (data : List ProcessedDataPoint) (axis : DataAxis)
    (hne : data ≠ []) :
    (calculateStats data axis).peakVal = (calculateStats data axis).zeroPk ∧
    (∀ p ∈ data, |axisVal p axis| ≤ (calculateStats data axis).peakVal) ∧
    (∃ p ∈ data, |axisVal p axis| = (calculateStats data axis).peakVal) ∧
    (0 < (calculateStats data axis).peakVal →
      ∃ p ∈ data, |axisVal p axis| = (calculateStats data axis).peakVal ∧
        p.time = (calculateStats data axis).peakTime) := by
  have hn : data.length ≠ 0 := by
    intro h
    exact hne (List.length_eq_zero.mp h)
  obtain ⟨h1, h2, h3⟩ := calculateStats_peak_fields data axis hn
  refine ⟨by rw [h1, h2], ?_, ?_, ?_⟩
  · intro p hp
    rw [h1]
    exact overallScan_maxAbs_ge data axis p hp
  · rcases foldl_scanStep_tracking data axis ⟨0, 0, ⟨0, 0⟩⟩ with ⟨hm, _⟩ | ⟨p, hp, hm, _⟩
    · rcases List.exists_mem_of_ne_nil data hne with ⟨p, hp⟩
      have hm' : (overallScan data axis).maxAbs = 0 := hm
      refine ⟨p, hp, le_antisymm ?_ ?_⟩
      · rw [h1]
        exact overallScan_maxAbs_ge data axis p hp
      · rw [h1, hm']
        exact abs_nonneg _
    · have hm' : (overallScan data axis).maxAbs = |axisVal p axis| := hm
      refine ⟨p, hp, ?_⟩
      rw [h1, hm']
  · intro hpos
    rcases foldl_scanStep_tracking data axis ⟨0, 0, ⟨0, 0⟩⟩ with ⟨hm, _⟩ | ⟨p, hp, hm, hmp⟩
    · exfalso
      have hm' : (overallScan data axis).maxAbs = 0 := hm
      rw [h1, hm'] at hpos
      exact lt_irrefl 0 hpos
    · have hm' : (overallScan data axis).maxAbs = |axisVal p axis| := hm
      have hmp' : (overallScan data axis).maxPoint = ⟨p.time, axisVal p axis⟩ := hmp
      refine ⟨p, hp, ?_, ?_⟩
      · rw [h1, hm']
      · rw [h3, hmp']

/-- C10 counterexample: on a series whose `az` axis is identically zero and
whose single sample has time 1, `calculateStats` returns `peakTime = 0`
although no sample of the series has time 0 — the returned `peakTime` is not
the time of a sample attaining the maximum. -/
theorem calculateStats_peakTime_counterexample :
    (calculateStats [⟨1, 0, 0, 0, 0, 0⟩] DataAxis.az).peakVal = 0 ∧
    (calculateStats [⟨1, 0, 0, 0, 0, 0⟩] DataAxis.az).peakTime = 0 ∧
    ([⟨1, 0, 0, 0, 0, 0⟩] : List ProcessedDataPoint).map ProcessedDataPoint.time = [1] ∧
    (0 : ℚ) ∉ ([⟨1, 0, 0, 0, 0, 0⟩] : List ProcessedDataPoint).map ProcessedDataPoint.time := by
  have h2 : List.range' 0 1 = [0] := by decide
  have hax : ¬ (DataAxis.az = DataAxis.vz ∨ DataAxis.az = DataAxis.sz) := by decide
  refine ⟨?_, ?_, by norm_num, by norm_num⟩ <;>
    norm_num [calculateStats, overallScan, scanStep, axisVal, valsOf, valAt,
      zcPeaks, zcScanStep, isCrossing, findLocalPeak, pickPeakIdx, adjacentPairs,
      oppositeSigns, maxPkPkFold, orderPair, index95, h2, hax]

/-- Concrete instantiation of `calculateStats_peak_spec`. -/
theorem calculateStats_peak_spec_witness :
    ([⟨2, 0, 0, 3, 0, 0⟩] : List ProcessedDataPoint) ≠ [] ∧
    ((calculateStats [⟨2, 0, 0, 3, 0, 0⟩] DataAxis.az).peakVal =
      (calculateStats [⟨2, 0, 0, 3, 0, 0⟩] DataAxis.az).zeroPk ∧
    (∀ p ∈ ([⟨2, 0, 0, 3, 0, 0⟩] : List ProcessedDataPoint),
      |axisVal p DataAxis.az| ≤ (calculateStats [⟨2, 0, 0, 3, 0, 0⟩] DataAxis.az).peakVal) ∧
    (∃ p ∈ ([⟨2, 0, 0, 3, 0, 0⟩] : List ProcessedDataPoint),
      |axisVal p DataAxis.az| = (calculateStats [⟨2, 0, 0, 3, 0, 0⟩] DataAxis.az).peakVal) ∧
    (0 < (calculateStats [⟨2, 0, 0, 3, 0, 0⟩] DataAxis.az).peakVal →
      ∃ p ∈ ([⟨2, 0, 0, 3, 0, 0⟩] : List ProcessedDataPoint),
        |axisVal p DataAxis.az| = (calculateStats [⟨2, 0, 0, 3, 0, 0⟩] DataAxis.az).peakVal ∧
          p.time = (calculateStats [⟨2, 0, 0, 3, 0, 0⟩] DataAxis.az).peakTime)) :=
  ⟨by decide, calculateStats_peak_spec [⟨2, 0, 0, 3, 0, 0⟩] DataAxis.az (by decide)⟩

/-! ## The A95 / Max Pk-Pk relation -/

theorem maxPkPkFold_ge_acc (pairs : List (ℚ × LocalPeak × LocalPeak)) :
    ∀ acc : ℚ × Option (Point × Point),
      acc.1 ≤ (pairs.foldl
        (fun acc item =>
          if item.1 > acc.1 then (item.1, some (orderPair item.2.1 item.2.2)) else acc)
        acc).1 := by
  induction pairs with
  | nil => intro acc; exact le_refl _
  | cons item rest ih =>
      intro acc
      simp only [List.foldl_cons]
      refine le_trans ?_ (ih _)
      by_cases h : item.1 > acc.1
      · rw [if_pos h]; exact le_of_lt h
      · rw [if_neg h]

theorem maxPkPkFold_ge_mem (pairs : List (ℚ × LocalPeak × LocalPeak)) :
    ∀ acc : ℚ × Option (Point × Point), ∀ item ∈ pairs,
      item.1 ≤ (pairs.foldl
        (fun acc item =>
          if item.1 > acc.1 then (item.1, some (orderPair item.2.1 item.2.2)) else acc)
        acc).1 := by
  induction pairs with
  | nil => intro acc item h; exact absurd h (List.not_mem_nil item)
  | cons hd rest ih =>
      intro acc item h
      rcases List.mem_cons.mp h with h | h
      · subst h
        simp only [List.foldl_cons]
        refine le_trans ?_ (maxPkPkFold_ge_acc rest _)
        by_cases hc : item.1 > acc.1
        · rw [if_pos hc]
        · rw [if_neg hc]; exact not_lt.mp hc
      · simp only [List.foldl_cons]
        exact ih _ item h

/-- The fields of `calculateStats` on the main (acceleration, non-empty pair
list) branch. -/
theorem calculateStats_main_branch (data : List ProcessedDataPoint) (axis : DataAxis)
    (hn : data.length ≠ 0) (hax : ¬ (axis = DataAxis.vz ∨ axis = DataAxis.sz))
    (hp : pkPkValuesOf data axis ≠ []) :
    (calculateStats data axis).pkPk =
      (maxPkPkFold (adjacentPairs (zcPeaks data axis))).1 ∧
    (calculateStats data axis).a95 =
      ((pkPkValuesOf data axis).insertionSort (fun a b => a ≤ b)).getD
        (min (index95 (pkPkValuesOf data axis).length)
          ((pkPkValuesOf data axis).length - 1)) 0 := by
  have hp' : ¬ ((adjacentPairs (zcPeaks data axis)).map (fun item => item.1)).length = 0 := by
    intro h
    exact hp (List.length_eq_zero.mp h)
  unfold calculateStats
  rw [if_neg hn]
  simp only [if_neg hax, if_neg hp']
  refine ⟨?_, ?_⟩ <;> trivial

/-- C5: on any acceleration-axis series with a non-empty pair-value list,
`a95` is the entry of the ascending-sorted pair-value list at index
`min(floor(0.95·count), count-1)`, and `a95 ≤ pkPk`. -/
theorem calculateStats_a95_spec (data : List ProcessedDataPoint) (axis : DataAxis)
    (hax : ¬ (axis = DataAxis.vz ∨ axis = DataAxis.sz))
    (hp : pkPkValuesOf data axis ≠ []) :
    (calculateStats data axis).a95 =
      ((pkPkValuesOf data axis).insertionSort (fun a b => a ≤ b)).getD
        (min (index95 (pkPkValuesOf data axis).length)
          ((pkPkValuesOf data axis).length - 1)) 0 ∧
    (calculateStats data axis).a95 ≤ (calculateStats data axis).pkPk := by
  have hn : data.length ≠ 0 := by
    intro h
    have hdata : data = [] := List.length_eq_zero.mp h
    apply hp
    subst hdata
    rfl
  obtain ⟨hpk, ha95⟩ := calculateStats_main_branch data axis hn hax hp
  refine ⟨ha95, ?_⟩
  rw [ha95, hpk]
  set l := pkPkValuesOf data axis with hl
  have hm : 0 < l.length := List.length_pos.mpr hp
  have hsortlen : (l.insertionSort (fun a b => a ≤ b)).length = l.length :=
    (List.perm_insertionSort (fun a b => a ≤ b) l).length_eq
  have hidx : min (index95 l.length) (l.length - 1) < (l.insertionSort (fun a b => a ≤ b)).length := by
    rw [hsortlen]
    omega
  rw [List.getD_eq_getElem _ _ hidx]
  have hmem : (l.insertionSort (fun a b => a ≤ b))[min (index95 l.length) (l.length - 1)] ∈ l :=
    (List.perm_insertionSort (fun a b => a ≤ b) l).mem_iff.mp (List.getElem_mem hidx)
  have hmem' : (l.insertionSort (fun a b => a ≤ b))[min (index95 l.length) (l.length - 1)] ∈
      (adjacentPairs (zcPeaks data axis)).map (fun item => item.1) := hmem
  rcases List.mem_map.mp hmem' with ⟨item, hitem, hval⟩
  rw [← hval]
  exact maxPkPkFold_ge_mem (adjacentPairs (zcPeaks data axis)) (0, none) item hitem

/-- The pair-value list of the two-sample series `az = [1, -1]` is `[2]`. -/
theorem pkPkValuesOf_twoSample :
    pkPkValuesOf [⟨0, 0, 0, 1, 0, 0⟩, ⟨1, 0, 0, -1, 0, 0⟩] DataAxis.az = [2] := by
  have h1 : List.range 1 = [0] := by decide
  have h2 : List.range' 0 1 = [0] := by decide
  have h3 : List.range' 1 1 = [1] := by decide
  norm_num [pkPkValuesOf, zcPeaks, zcScanStep, isCrossing, valAt, valsOf, axisVal,
    findLocalPeak, pickPeakIdx, adjacentPairs, oppositeSigns, h1, h2, h3]

/-- Concrete instantiation of `calculateStats_a95_spec`. -/
theorem calculateStats_a95_spec_witness :
    ¬ (DataAxis.az = DataAxis.vz ∨ DataAxis.az = DataAxis.sz) ∧
    pkPkValuesOf [⟨0, 0, 0, 1, 0, 0⟩, ⟨1, 0, 0, -1, 0, 0⟩] DataAxis.az ≠ [] ∧
    ((calculateStats [⟨0, 0, 0, 1, 0, 0⟩, ⟨1, 0, 0, -1, 0, 0⟩] DataAxis.az).a95 =
      ((pkPkValuesOf [⟨0, 0, 0, 1, 0, 0⟩, ⟨1, 0, 0, -1, 0, 0⟩] DataAxis.az).insertionSort
          (fun a b => a ≤ b)).getD
        (min (index95 (pkPkValuesOf [⟨0, 0, 0, 1, 0, 0⟩, ⟨1, 0, 0, -1, 0, 0⟩] DataAxis.az).length)
          ((pkPkValuesOf [⟨0, 0, 0, 1, 0, 0⟩, ⟨1, 0, 0, -1, 0, 0⟩] DataAxis.az).length - 1)) 0 ∧
    (calculateStats [⟨0, 0, 0, 1, 0, 0⟩, ⟨1, 0, 0, -1, 0, 0⟩] DataAxis.az).a95 ≤
      (calculateStats [⟨0, 0, 0, 1, 0, 0⟩, ⟨1, 0, 0, -1, 0, 0⟩] DataAxis.az).pkPk) :=
  ⟨by decide, by rw [pkPkValuesOf_twoSample]; simp,
    calculateStats_a95_spec [⟨0, 0, 0, 1, 0, 0⟩, ⟨1, 0, 0, -1, 0, 0⟩] DataAxis.az
      (by decide) (by rw [pkPkValuesOf_twoSample]; simp)⟩

/-! ## Pipeline with filtering disabled -/

/-- C7: when the filter configuration is disabled, the pipeline feeds the raw
series itself to the integrator — the very same list, not a lossy copy — for
every possible filter engine, so the downstream output is the processed raw
data. -/
theorem filter_disabled_identity
    (applyF : List RawDataPoint → ℚ → FilterConfig → List RawDataPoint)
    (rawData : List RawDataPoint) (fs : ℚ) (cfg : FilterConfig)
    (hcfg : cfg.enabled = false) :
    pipelineDataToProcess applyF rawData fs cfg = rawData ∧
    pipelineProcessed applyF rawData fs cfg = processVibrationData rawData fs := by
  have h : pipelineDataToProcess applyF rawData fs cfg = rawData := by
    unfold pipelineDataToProcess
    rw [hcfg]
    simp
  refine ⟨h, ?_⟩
  unfold pipelineProcessed
  rw [h]

/-- Concrete instantiation of `filter_disabled_identity` (with a filter
engine that would destroy the data if it ran). -/
theorem filter_disabled_identity_witness :
    (⟨false, 0, 30, false, TargetAxes.all⟩ : FilterConfig).enabled = false ∧
    pipelineDataToProcess (fun _ _ _ => []) [⟨0, 1, 2, 3⟩] 1600
      ⟨false, 0, 30, false, TargetAxes.all⟩ = [⟨0, 1, 2, 3⟩] ∧
    pipelineProcessed (fun _ _ _ => []) [⟨0, 1, 2, 3⟩] 1600
      ⟨false, 0, 30, false, TargetAxes.all⟩ =
      processVibrationData [⟨0, 1, 2, 3⟩] 1600 :=
  ⟨rfl,
    (filter_disabled_identity (fun _ _ _ => []) [⟨0, 1, 2, 3⟩] 1600
      ⟨false, 0, 30, false, TargetAxes.all⟩ rfl).1,
    (filter_disabled_identity (fun _ _ _ => []) [⟨0, 1, 2, 3⟩] 1600
      ⟨false, 0, 30, false, TargetAxes.all⟩ rfl).2⟩

/-! ## Degenerate inputs -/

/-- The degenerate (no pairs) branch of `calculateStats` returns
`pkPk = 0` and `a95 = 0`. -/
theorem calculateStats_no_pairs (data : List ProcessedDataPoint) (axis : DataAxis)
    (hn : data.length ≠ 0) (hax : ¬ (axis = DataAxis.vz ∨ axis = DataAxis.sz))
    (hp : pkPkValuesOf data axis = []) :
    (calculateStats data axis).pkPk = 0 ∧ (calculateStats data axis).a95 = 0 := by
  have hp' : ((adjacentPairs (zcPeaks data axis)).map (fun item => item.1)).length = 0 := by
    rw [show (adjacentPairs (zcPeaks data axis)).map (fun item => item.1) =
      pkPkValuesOf data axis from rfl, hp]
    rfl
  unfold calculateStats
  rw [if_neg hn]
  simp only [if_neg hax, if_pos hp']
  refine ⟨?_, ?_⟩ <;> trivial

/-- C6: degenerate inputs return defined results: an empty series yields the
all-zero stats record; a series of fewer than two samples yields an empty
spectrum; an acceleration-axis series without local-peak pairs yields
`pkPk = 0` and `a95 = 0` while `zeroPk` and `peakVal` are still the
(attained) global maximum absolute value. -/
theorem degenerate_inputs_defined :
    (∀ axis, calculateStats [] axis =
      { peakVal := 0, peakTime := 0, rmsSq := 0, pkPk := 0, zeroPk := 0, a95 := 0 }) ∧
    (∀ (data : List ℝ) (fs : ℝ), data.length < 2 → calculateFFT data fs = []) ∧
    (∀ (data : List ProcessedDataPoint) (axis : DataAxis), data ≠ [] →
      ¬ (axis = DataAxis.vz ∨ axis = DataAxis.sz) →
      pkPkValuesOf data axis = [] →
      (calculateStats data axis).pkPk = 0 ∧
      (calculateStats data axis).a95 = 0 ∧
      (calculateStats data axis).peakVal = (calculateStats data axis).zeroPk ∧
      (∀ p ∈ data, |axisVal p axis| ≤ (calculateStats data axis).zeroPk) ∧
      (∃ p ∈ data, |axisVal p axis| = (calculateStats data axis).zeroPk)) := by
  refine ⟨?_, ?_, ?_⟩
  · intro axis
    rfl
  · intro data fs h
    match data with
    | [] => rfl
    | [x] =>
        unfold calculateFFT
        norm_num [Nat.log2]
    | x :: y :: rest => simp at h; omega
  · intro data axis hne hax hp
    obtain ⟨h1, h2⟩ := calculateStats_no_pairs data axis
      (fun h => hne (List.length_eq_zero.mp h)) hax hp
    obtain ⟨g1, g2, g3, _⟩ := calculateStats_peak_spec data axis hne
    refine ⟨h1, h2, g1, ?_, ?_⟩
    · intro p hpmem
      rw [← g1]
      exact g2 p hpmem
    · rcases g3 with ⟨p, hpmem, hval⟩
      exact ⟨p, hpmem, by rw [← g1]; exact hval⟩

/-- The two-sample flat series `az = [1, 1]` has no local-peak pairs. -/
theorem pkPkValuesOf_flat :
    pkPkValuesOf [⟨5, 0, 0, 1, 0, 0⟩, ⟨6, 0, 0, 1, 0, 0⟩] DataAxis.az = [] := by
  have h1 : List.range 1 = [0] := by decide
  have h2 : List.range' 0 2 = [0, 1] := by decide
  norm_num [pkPkValuesOf, zcPeaks, zcScanStep, isCrossing, valAt, valsOf, axisVal,
    findLocalPeak, pickPeakIdx, adjacentPairs, oppositeSigns, h1, h2]

/-- Concrete instantiation of `degenerate_inputs_defined`. -/
theorem degenerate_inputs_defined_witness :
    (([0.5] : List ℝ).length < 2 ∧ calculateFFT [0.5] 1600 = []) ∧
    (([⟨5, 0, 0, 1, 0, 0⟩, ⟨6, 0, 0, 1, 0, 0⟩] : List ProcessedDataPoint) ≠ [] ∧
      ¬ (DataAxis.az = DataAxis.vz ∨ DataAxis.az = DataAxis.sz) ∧
      pkPkValuesOf [⟨5, 0, 0, 1, 0, 0⟩, ⟨6, 0, 0, 1, 0, 0⟩] DataAxis.az = [] ∧
      (calculateStats [⟨5, 0, 0, 1, 0, 0⟩, ⟨6, 0, 0, 1, 0, 0⟩] DataAxis.az).pkPk = 0 ∧
      (calculateStats [⟨5, 0, 0, 1, 0, 0⟩, ⟨6, 0, 0, 1, 0, 0⟩] DataAxis.az).a95 = 0) :=
  ⟨⟨by norm_num, degenerate_inputs_defined.2.1 [0.5] 1600 (by norm_num)⟩,
    ⟨by decide, by decide, pkPkValuesOf_flat,
      (degenerate_inputs_defined.2.2 [⟨5, 0, 0, 1, 0, 0⟩, ⟨6, 0, 0, 1, 0, 0⟩] DataAxis.az
        (by decide) (by decide) pkPkValuesOf_flat).1,
      (degenerate_inputs_defined.2.2 [⟨5, 0, 0, 1, 0, 0⟩, ⟨6, 0, 0, 1, 0, 0⟩] DataAxis.az
        (by decide) (by decide) pkPkValuesOf_flat).2.1⟩⟩

/-! ## Downsampler bucket lemmas -/

theorem bucketPeakIdx_bounds (data : List ProcessedDataPoint) (i endIdx : ℕ) :
    i ≤ bucketPeakIdx data i endIdx ∧
      (bucketPeakIdx data i endIdx < endIdx ∨ bucketPeakIdx data i endIdx = i) := by
  unfold bucketPeakIdx
  have key : ∀ (l : List ℕ) (acc : ℚ × ℕ), (∀ j ∈ l, i ≤ j ∧ j < endIdx) →
      (i ≤ acc.2 ∧ (acc.2 < endIdx ∨ acc.2 = i)) →
      (i ≤ (l.foldl
        (fun (acc : ℚ × ℕ) j =>
          let val := max |(data.getD j default).ax|
            (max |(data.getD j default).ay| |(data.getD j default).az|)
          if val > acc.1 then (val, j) else acc)
        acc).2 ∧
      ((l.foldl
        (fun (acc : ℚ × ℕ) j =>
          let val := max |(data.getD j default).ax|
            (max |(data.getD j default).ay| |(data.getD j default).az|)
          if val > acc.1 then (val, j) else acc)
        acc).2 < endIdx ∨
       (l.foldl
        (fun (acc : ℚ × ℕ) j =>
          let val := max |(data.getD j default).ax|
            (max |(data.getD j default).ay| |(data.getD j default).az|)
          if val > acc.1 then (val, j) else acc)
        acc).2 = i)) := by
    intro l
    induction l with
    | nil => intro acc _ hacc; exact hacc
    | cons a rest ih =>
        intro acc hmem hacc
        simp only [List.foldl_cons]
        refine ih _ (fun j hj => hmem j (List.mem_cons_of_mem a hj)) ?_
        have ha := hmem a (List.mem_cons_self a rest)
        by_cases hc : max |(data.getD a default).ax|
            (max |(data.getD a default).ay| |(data.getD a default).az|) > acc.1
        · simp only [if_pos hc]
          exact ⟨ha.1, Or.inl ha.2⟩
        · simp only [if_neg hc]
          exact hacc
  refine key _ (-1, i) ?_ ⟨le_refl i, Or.inr rfl⟩
  intro j hj
  have := List.mem_range'_1.mp hj
  omega

theorem bucketPeakIdx_single (data : List ProcessedDataPoint) (i endIdx : ℕ)
    (h : endIdx ≤ i + 1) : bucketPeakIdx data i endIdx = i := by
  unfold bucketPeakIdx
  rcases le_or_lt endIdx i with h0 | h0
  · rw [show endIdx - i = 0 from by omega]
    rfl
  · rw [show endIdx - i = 1 from by omega]
    have hpos : max |(data.getD i default).ax|
        (max |(data.getD i default).ay| |(data.getD i default).az|) > (-1 : ℚ) :=
      lt_of_lt_of_le (show (-1 : ℚ) < 0 by norm_num)
        (le_trans (abs_nonneg _) (le_max_left _ _))
    simp only [List.range', List.foldl_cons, List.foldl_nil, if_pos hpos]

theorem bucketEmit_length (data : List ProcessedDataPoint) (i endIdx : ℕ) :
    (bucketEmit data i endIdx).length = 1 ∨ (bucketEmit data i endIdx).length = 2 := by
  unfold bucketEmit
  by_cases h : bucketPeakIdx data i endIdx ≠ i
  · rw [if_pos h]; right; rfl
  · rw [if_neg h]; left; rfl

theorem bucketEmit_length_le (data : List ProcessedDataPoint) (i endIdx : ℕ)
    (hlt : i < endIdx) : (bucketEmit data i endIdx).length ≤ endIdx - i := by
  rcases Nat.lt_or_ge (i + 1) endIdx with h2 | h2
  · rcases bucketEmit_length data i endIdx with h | h <;> omega
  · have := bucketPeakIdx_single data i endIdx h2
    unfold bucketEmit
    rw [if_neg (by rw [this]; exact fun h => h rfl)]
    simp only [List.length_cons, List.length_nil]
    omega

/-- The total number of points emitted by the bucket loop starting at `i` is
at most `len - i`, provided `step ≥ 2` and every loop head stays below
`len`. -/
theorem flatMap_bucketEmit_length (data : List ProcessedDataPoint) (len step : ℕ)
    (hstep : 2 ≤ step) :
    ∀ (cnt i : ℕ), (∀ j ∈ List.range' i cnt step, j < len) →
      ((List.range' i cnt step).flatMap
        (fun b => bucketEmit data b (min (b + step) len))).length ≤ len - i := by
  intro cnt
  induction cnt with
  | zero => intro i _; simp
  | succ c ih =>
      intro i hmem
      have hi : i < len := hmem i (by simp [List.range'])
      rw [show List.range' i (c + 1) step = i :: List.range' (i + step) c step from rfl]
      rw [List.flatMap_cons, List.length_append]
      have hemit : (bucketEmit data i (min (i + step) len)).length ≤ min (i + step) len - i :=
        bucketEmit_length_le data i (min (i + step) len) (by omega)
      rcases Nat.lt_or_ge (i + step) len with hcase | hcase
      · have hrest := ih (i + step) (fun j hj => hmem j (List.mem_cons_of_mem i hj))
        omega
      · have hc0 : c = 0 := by
          by_contra hc
          have : i + step ∈ List.range' (i + step) c step := by
            match c, hc with
            | c' + 1, _ => simp [List.range']
          have := hmem (i + step) (List.mem_cons_of_mem i this)
          omega
        subst hc0
        simp only [List.range', List.flatMap_nil, List.length_nil]
        omega

/-- `downsampleData` never lengthens a series. -/
theorem downsampleData_length_le (data : List ProcessedDataPoint) (t : ℕ) :
    (downsampleData data t).length ≤ data.length := by
  unfold downsampleData
  by_cases hshort : data.length ≤ t
  · rw [if_pos hshort]
  · rw [if_neg hshort]
    by_cases hb : t / 2 = 0
    · simp only [if_pos hb]
      have hlen : 1 ≤ data.length := by omega
      rcases Nat.lt_or_ge 1 data.length with h2 | h2
      · rcases bucketEmit_length data 0 data.length with h | h <;> omega
      · have : data.length = 1 := by omega
        have := bucketEmit_length_le data 0 data.length (by omega)
        omega
    · simp only [if_neg hb]
      have hstep : 2 ≤ data.length / (t / 2) := by
        have hble : 2 * (t / 2) ≤ data.length := by omega
        exact (Nat.le_div_iff_mul_le (by omega)).mpr (by omega)
      have := flatMap_bucketEmit_length data data.length (data.length / (t / 2)) hstep
        ((data.length + data.length / (t / 2) - 1) / (data.length / (t / 2))) 0 ?_
      · unfold bucketStarts
        omega
      · intro j hj
        rcases List.mem_range'.mp hj with ⟨a, ha, rfl⟩
        have h1 : (data.length + data.length / (t / 2) - 1) / (data.length / (t / 2)) *
            (data.length / (t / 2)) ≤ data.length + data.length / (t / 2) - 1 :=
          Nat.div_mul_le_self _ _
        have h2 : (a + 1) * (data.length / (t / 2)) ≤
            (data.length + data.length / (t / 2) - 1) / (data.length / (t / 2)) *
              (data.length / (t / 2)) :=
          Nat.mul_le_mul_right _ (by omega)
        have h3 : 0 + (data.length / (t / 2)) * a + (data.length / (t / 2)) ≤
            (a + 1) * (data.length / (t / 2)) := by ring_nf; omega
        omega

/-- C8 counterexample: with `targetCount = 6` the seven-sample strictly
increasing series is a fixed point of `downsampleData` (buckets of step 2,
each emitting both its points), so even repeated downsampling yields a
series of length 7 > 6. -/
theorem downsample_target_counterexample :
    downsampleData sevenSamples 6 = sevenSamples ∧
    downsampleData (downsampleData sevenSamples 6) 6 = sevenSamples ∧
    (downsampleData (downsampleData sevenSamples 6) 6).length = 7 ∧
    ¬ ((downsampleData (downsampleData sevenSamples 6) 6).length ≤ 6) := by
  have h0 : downsampleData sevenSamples 6 = sevenSamples := by
    have ha : List.range' 0 4 2 = [0, 2, 4, 6] := by decide
    have hb : List.range' 0 2 = [0, 1] := by decide
    have hc : List.range' 2 2 = [2, 3] := by decide
    have hd : List.range' 4 2 = [4, 5] := by decide
    have he : List.range' 6 1 = [6] := by decide
    norm_num [downsampleData, sevenSamples, bucketStarts, bucketEmit, bucketPeakIdx,
      ha, hb, hc, hd, he]
  refine ⟨h0, by rw [h0, h0], by rw [h0, h0]; rfl, by rw [h0, h0]; norm_num [sevenSamples]⟩

/-- C8 (amended): `downsampleData` is the identity whenever
`series.length ≤ targetCount`, and re-applying it with the same target never
lengthens the result; the twice-downsampled series is no longer than the
once-downsampled one (but, as the counterexample shows, its length can
exceed `targetCount`). -/
theorem downsampleData_noop_and_shrink (data : List ProcessedDataPoint) (t : ℕ) :
    (data.length ≤ t → downsampleData data t = data) ∧
    (downsampleData (downsampleData data t) t).length ≤ (downsampleData data t).length := by
  constructor
  · intro h
    unfold downsampleData
    rw [if_pos h]
  · exact downsampleData_length_le _ t

/-- Concrete instantiation of `downsampleData_noop_and_shrink`. -/
theorem downsampleData_noop_and_shrink_witness :
    ([⟨0, 0, 0, 1, 0, 0⟩] : List ProcessedDataPoint).length ≤ 5 ∧
    downsampleData [⟨0, 0, 0, 1, 0, 0⟩] 5 = [⟨0, 0, 0, 1, 0, 0⟩] ∧
    (downsampleData (downsampleData [⟨0, 0, 0, 1, 0, 0⟩] 5) 5).length ≤
      (downsampleData [⟨0, 0, 0, 1, 0, 0⟩] 5).length :=
  ⟨by norm_num, (downsampleData_noop_and_shrink [⟨0, 0, 0, 1, 0, 0⟩] 5).1 (by norm_num),
    (downsampleData_noop_and_shrink [⟨0, 0, 0, 1, 0, 0⟩] 5).2⟩

/-! ## Downsampler ordering invariants -/

theorem bucketEmit_eq_map (data : List ProcessedDataPoint) (i endIdx : ℕ) :
    bucketEmit data i endIdx =
      (bucketEmitIdx data i endIdx).map (fun j => data.getD j default) := by
  unfold bucketEmit bucketEmitIdx
  by_cases h : bucketPeakIdx data i endIdx ≠ i
  · rw [if_pos h, if_pos h]
    rfl
  · rw [if_neg h, if_neg h]
    rfl

theorem map_getD_range (l : List ProcessedDataPoint) :
    (List.range l.length).map (fun j => l.getD j default) = l := by
  apply List.ext_getElem
  · simp
  · intro i h1 h2
    simp only [List.getElem_map, List.getElem_range]
    exact List.getD_eq_getElem l default h2

/-- The emitted points are exactly the emitted indices read back from the
input series. -/
theorem downsampleData_eq_map (data : List ProcessedDataPoint) (t : ℕ) :
    downsampleData data t =
      (downsampleIdx data t).map (fun j => data.getD j default) := by
  unfold downsampleData downsampleIdx
  by_cases hshort : data.length ≤ t
  · rw [if_pos hshort, if_pos hshort, map_getD_range]
  · rw [if_neg hshort, if_neg hshort]
    by_cases hb : t / 2 = 0
    · simp only [if_pos hb]
      exact bucketEmit_eq_map data 0 data.length
    · simp only [if_neg hb]
      rw [List.map_flatMap]
      simp only [bucketEmit_eq_map]

theorem bucketEmitIdx_cases (data : List ProcessedDataPoint) (i endIdx : ℕ) :
    bucketEmitIdx data i endIdx = [i] ∨
    (bucketEmitIdx data i endIdx = [i, bucketPeakIdx data i endIdx] ∧
      i < bucketPeakIdx data i endIdx ∧ bucketPeakIdx data i endIdx < endIdx) := by
  unfold bucketEmitIdx
  by_cases h : bucketPeakIdx data i endIdx ≠ i
  · rw [if_pos h]
    obtain ⟨h1, h2⟩ := bucketPeakIdx_bounds data i endIdx
    refine Or.inr ⟨rfl, by omega, by rcases h2 with h2 | h2 <;> omega⟩
  · rw [if_neg h]
    exact Or.inl rfl

theorem bucketStarts_lt (len step j : ℕ) (hstep : 1 ≤ step)
    (hj : j ∈ bucketStarts len step) : j < len := by
  unfold bucketStarts at hj
  rcases List.mem_range'.mp hj with ⟨a, ha, rfl⟩
  have h1 : (len + step - 1) / step * step ≤ len + step - 1 := Nat.div_mul_le_self _ _
  have h2 : (a + 1) * step ≤ (len + step - 1) / step * step :=
    Nat.mul_le_mul_right _ (by omega)
  have h3 : 0 + step * a + step ≤ (a + 1) * step := by ring_nf; omega
  omega

/-- All indices emitted by `downsampleIdx` address actual input samples. -/
theorem downsampleIdx_lt_length (data : List ProcessedDataPoint) (t : ℕ) :
    ∀ j ∈ downsampleIdx data t, j < data.length := by
  intro j hj
  unfold downsampleIdx at hj
  by_cases hshort : data.length ≤ t
  · rw [if_pos hshort] at hj
    exact List.mem_range.mp hj
  · rw [if_neg hshort] at hj
    by_cases hb : t / 2 = 0
    · simp only [if_pos hb] at hj
      rcases bucketEmitIdx_cases data 0 data.length with h | ⟨h, h1, h2⟩ <;> rw [h] at hj
      · rcases List.mem_singleton.mp hj with rfl
        omega
      · rcases List.mem_cons.mp hj with rfl | hj
        · omega
        · rcases List.mem_singleton.mp hj with rfl
          exact h2
    · simp only [if_neg hb] at hj
      rcases List.mem_flatMap.mp hj with ⟨b, hbmem, hjb⟩
      have hstep2 : 2 ≤ data.length / (t / 2) :=
        (Nat.le_div_iff_mul_le (by omega)).mpr (by omega)
      have hblt : b < data.length := bucketStarts_lt data.length _ b (by omega) hbmem
      rcases bucketEmitIdx_cases data b (min (b + data.length / (t / 2)) data.length)
          with h | ⟨h, h1, h2⟩ <;> rw [h] at hjb
      · rcases List.mem_singleton.mp hjb with rfl
        exact hblt
      · rcases List.mem_cons.mp hjb with rfl | hjb
        · exact hblt
        · rcases List.mem_singleton.mp hjb with rfl
          omega

/-- The bucket loop emits strictly increasing indices. -/
theorem chain_flatMap_idx (data : List ProcessedDataPoint) (len step : ℕ)
    (hstep : 1 ≤ step) :
    ∀ cnt i, List.Chain' (· < ·) ((List.range' i cnt step).flatMap
      (fun b => bucketEmitIdx data b (min (b + step) len))) := by
  intro cnt
  induction cnt with
  | zero => intro i; simp
  | succ c ih =>
      intro i
      rw [show List.range' i (c + 1) step = i :: List.range' (i + step) c step from rfl]
      rw [List.flatMap_cons]
      have hchunk : List.Chain' (· < ·) (bucketEmitIdx data i (min (i + step) len)) := by
        rcases bucketEmitIdx_cases data i (min (i + step) len) with h | ⟨h, h1, _⟩ <;> rw [h]
        · simp
        · simp [h1]
      refine List.Chain'.append hchunk (ih (i + step)) ?_
      intro x hx y hy
      have hxlt : x < i + step := by
        rcases bucketEmitIdx_cases data i (min (i + step) len) with h | ⟨h, h1, h2⟩ <;>
          rw [h] at hx
        · simp only [List.getLast?_singleton, Option.mem_def, Option.some.injEq] at hx
          omega
        · simp only [List.getLast?_cons_cons, List.getLast?_singleton, Option.mem_def,
            Option.some.injEq] at hx
          omega
      have hyge : i + step ≤ y := by
        match c with
        | 0 => simp at hy
        | c' + 1 =>
            rw [show List.range' (i + step) (c' + 1) step =
              (i + step) :: List.range' (i + step + step) c' step from rfl,
              List.flatMap_cons] at hy
            rcases bucketEmitIdx_cases data (i + step) (min (i + step + step) len)
                with h | ⟨h, _, _⟩ <;> rw [h] at hy <;>
              simp only [List.cons_append, List.head?_cons, Option.mem_def,
                Option.some.injEq] at hy <;> omega
      omega

/-- The full index list of `downsampleData` is strictly increasing. -/
theorem downsampleIdx_chain (data : List ProcessedDataPoint) (t : ℕ) :
    List.Chain' (· < ·) (downsampleIdx data t) := by
  unfold downsampleIdx
  by_cases hshort : data.length ≤ t
  · rw [if_pos hshort]
    exact (List.pairwise_lt_range data.length).chain'
  · rw [if_neg hshort]
    by_cases hb : t / 2 = 0
    · simp only [if_pos hb]
      rcases bucketEmitIdx_cases data 0 data.length with h | ⟨h, h1, _⟩ <;> rw [h]
      · simp
      · simp [h1]
    · simp only [if_neg hb]
      have hstep2 : 2 ≤ data.length / (t / 2) :=
        (Nat.le_div_iff_mul_le (by omega)).mpr (by omega)
      exact chain_flatMap_idx data data.length (data.length / (t / 2)) (by omega) _ 0

theorem times_mono (data : List ProcessedDataPoint)
    (ht : List.Chain' (fun p q : ProcessedDataPoint => p.time ≤ q.time) data) :
    ∀ j j', j ≤ j' → j' < data.length →
      (data.getD j default).time ≤ (data.getD j' default).time := by
  have hpw : data.Pairwise (fun p q => p.time ≤ q.time) := by
    haveI : IsTrans ProcessedDataPoint (fun p q => p.time ≤ q.time) :=
      ⟨fun a b c h1 h2 => le_trans h1 h2⟩
    exact List.chain'_iff_pairwise.mp ht
  intro j j' hle hlt
  rcases eq_or_lt_of_le hle with rfl | hlt2
  · exact le_refl _
  · have hjlen : j < data.length := lt_trans hlt2 hlt
    rw [List.getD_eq_getElem data default hjlen, List.getD_eq_getElem data default hlt]
    exact List.pairwise_iff_getElem.mp hpw j j' hjlen hlt hlt2

theorem chain_lt_map_time (data : List ProcessedDataPoint)
    (ht : List.Chain' (fun p q : ProcessedDataPoint => p.time ≤ q.time) data) :
    ∀ idxs : List ℕ, List.Chain' (· < ·) idxs → (∀ j ∈ idxs, j < data.length) →
      List.Chain' (fun a b : ℕ =>
        (data.getD a default).time ≤ (data.getD b default).time) idxs := by
  intro idxs
  induction idxs with
  | nil => intro _ _; simp
  | cons a rest ih =>
      intro hc hb
      rw [List.chain'_cons'] at hc ⊢
      refine ⟨?_, ih hc.2 (fun j hj => hb j (List.mem_cons_of_mem a hj))⟩
      intro y hy
      have hay : a < y := hc.1 y hy
      have hylen : y < data.length := hb y (List.mem_cons_of_mem a (List.mem_of_mem_head? hy))
      exact times_mono data ht a y (le_of_lt hay) hylen

/-- C9: on a series with non-decreasing times, the output of
`downsampleData` is again non-decreasing in time; moreover the output reads
back a strictly increasing list of input indices — for every bucket size, no
input sample is ever emitted twice in adjacent positions (adjacent
duplicates can only be distinct input samples that were already equal). -/
theorem downsampleData_time_ascending (data : List ProcessedDataPoint) (t : ℕ)
    (ht : List.Chain' (fun p q : ProcessedDataPoint => p.time ≤ q.time) data) :
    List.Chain' (fun p q : ProcessedDataPoint => p.time ≤ q.time) (downsampleData data t) ∧
    downsampleData data t = (downsampleIdx data t).map (fun j => data.getD j default) ∧
    List.Chain' (· < ·) (downsampleIdx data t) := by
  refine ⟨?_, downsampleData_eq_map data t, downsampleIdx_chain data t⟩
  rw [downsampleData_eq_map data t, List.chain'_map]
  exact chain_lt_map_time data ht (downsampleIdx data t) (downsampleIdx_chain data t)
    (downsampleIdx_lt_length data t)

/-- Concrete instantiation of `downsampleData_time_ascending`. -/
theorem downsampleData_time_ascending_witness :
    List.Chain' (fun p q : ProcessedDataPoint => p.time ≤ q.time)
      [⟨0, 0, 0, 1, 0, 0⟩, ⟨1, 0, 0, 2, 0, 0⟩, ⟨2, 0, 0, 3, 0, 0⟩] ∧
    (List.Chain' (fun p q : ProcessedDataPoint => p.time ≤ q.time)
      (downsampleData [⟨0, 0, 0, 1, 0, 0⟩, ⟨1, 0, 0, 2, 0, 0⟩, ⟨2, 0, 0, 3, 0, 0⟩] 1) ∧
    downsampleData [⟨0, 0, 0, 1, 0, 0⟩, ⟨1, 0, 0, 2, 0, 0⟩, ⟨2, 0, 0, 3, 0, 0⟩] 1 =
      (downsampleIdx [⟨0, 0, 0, 1, 0, 0⟩, ⟨1, 0, 0, 2, 0, 0⟩, ⟨2, 0, 0, 3, 0, 0⟩] 1).map
        (fun j => ([⟨0, 0, 0, 1, 0, 0⟩, ⟨1, 0, 0, 2, 0, 0⟩,
          ⟨2, 0, 0, 3, 0, 0⟩] : List ProcessedDataPoint).getD j default) ∧
    List.Chain' (· < ·)
      (downsampleIdx [⟨0, 0, 0, 1, 0, 0⟩, ⟨1, 0, 0, 2, 0, 0⟩, ⟨2, 0, 0, 3, 0, 0⟩] 1)) :=
  ⟨by norm_num [List.chain'_cons, List.chain'_singleton],
    downsampleData_time_ascending [⟨0, 0, 0, 1, 0, 0⟩, ⟨1, 0, 0, 2, 0, 0⟩, ⟨2, 0, 0, 3, 0, 0⟩] 1
      (by norm_num [List.chain'_cons, List.chain'_singleton])⟩

/-! ## The synthetic square wave -/

theorem getD_range_map_d {α : Type} (n : ℕ) (f : ℕ → α) (i : ℕ) (d : α)
    (hi : i < n) : ((List.range n).map f).getD i d = f i := by
  rw [List.getD_eq_getElem?_getD, List.getElem?_map, List.getElem?_range hi]
  rfl

theorem squareSeries_length (A : ℚ) (k L : ℕ) : (squareSeries A k L).length = L := by
  unfold squareSeries
  rw [List.length_map, List.length_range]

theorem squareSeries_getD (A : ℚ) (k L j : ℕ) (hj : j < L) :
    (squareSeries A k L).getD j default =
      ⟨(j : ℚ), 0, 0, squareWave A k j, 0, 0⟩ := by
  unfold squareSeries
  exact getD_range_map_d L _ j default hj

theorem squareSeries_valAt (A : ℚ) (k L j : ℕ) (hj : j < L) :
    valAt (squareSeries A k L) DataAxis.az j = squareWave A k j := by
  unfold valAt valsOf squareSeries
  rw [List.map_map]
  exact getD_range_map_d L _ j 0 hj

theorem squareWave_cases (A : ℚ) (k j : ℕ) :
    squareWave A k j = A ∨ squareWave A k j = -A := by
  unfold squareWave
  by_cases h : (j / k) % 2 = 0
  · rw [if_pos h]; left; rfl
  · rw [if_neg h]; right; rfl

theorem squareWave_abs (A : ℚ) (hA : 0 < A) (k j : ℕ) : |squareWave A k j| = A := by
  rcases squareWave_cases A k j with h | h <;> rw [h]
  · exact abs_of_pos hA
  · rw [abs_neg]
    exact abs_of_pos hA

theorem squareWave_sign (A : ℚ) (hA : 0 < A) (k j : ℕ) :
    (0 ≤ squareWave A k j ↔ (j / k) % 2 = 0) ∧
    (squareWave A k j < 0 ↔ (j / k) % 2 = 1) := by
  unfold squareWave
  by_cases h : (j / k) % 2 = 0
  · rw [if_pos h]
    constructor
    · exact ⟨fun _ => h, fun _ => le_of_lt hA⟩
    · constructor
      · intro hlt; linarith
      · intro h1; omega
  · rw [if_neg h]
    constructor
    · constructor
      · intro hle; linarith
      · intro h0; exact absurd h0 h
    · exact ⟨fun _ => by omega, fun _ => by linarith⟩

theorem squareWave_crossing (A : ℚ) (hA : 0 < A) (k i : ℕ) :
    isCrossing (squareWave A k i) (squareWave A k (i + 1)) ↔ k ∣ (i + 1) := by
  have s1 := squareWave_sign A hA k i
  have s2 := squareWave_sign A hA k (i + 1)
  have hdiv := Nat.succ_div i k
  unfold isCrossing
  constructor
  · intro h
    by_contra hnd
    rw [if_neg hnd] at hdiv
    rcases h with ⟨h1, h2⟩ | ⟨h1, h2⟩
    · have e1 := s1.1.mp h1
      have e2 := s2.2.mp h2
      omega
    · have e1 := s1.2.mp h1
      have e2 := s2.1.mp h2
      omega
  · intro hd
    rw [if_pos hd] at hdiv
    by_cases hpar : i / k % 2 = 0
    · exact Or.inl ⟨s1.1.mpr hpar, s2.2.mpr (by omega)⟩
    · exact Or.inr ⟨s1.2.mpr (by omega), s2.1.mpr (by omega)⟩

theorem pickPeak_stay (v : ℕ → ℚ) :
    ∀ (l : List ℕ) (b : ℕ), (∀ j ∈ l, |v j| ≤ |v b|) →
      l.foldl
        (fun acc i =>
          match acc with
          | none => some i
          | some b' => if |v i| > |v b'| then some i else some b')
        (some b) = some b := by
  intro l
  induction l with
  | nil => intro b _; rfl
  | cons a rest ih =>
      intro b hmem
      simp only [List.foldl_cons]
      rw [if_neg (not_lt.mpr (hmem a (List.mem_cons_self a rest)))]
      exact ih b (fun j hj => hmem j (List.mem_cons_of_mem a hj))

theorem pickPeakIdx_constant (v : ℕ → ℚ) (a e : ℕ) (ha : a < e)
    (hconst : ∀ j, a ≤ j → j < e → |v j| = |v a|) :
    pickPeakIdx v a e = some a := by
  unfold pickPeakIdx
  obtain ⟨c, hc⟩ : ∃ c, e - a = c + 1 := ⟨e - a - 1, by omega⟩
  rw [show List.range' a (e - a) = a :: List.range' (a + 1) (e - a - 1) from by
    rw [show e - a - 1 = c from by omega, hc, List.range'_succ]]
  simp only [List.foldl_cons]
  show List.foldl _ (some a) _ = some a
  apply pickPeak_stay
  intro j hj
  have hmem := List.mem_range'_1.mp hj
  rw [hconst j (by omega) (by omega)]

/-- On the square-wave series, the local-peak search over any in-range
window starting at a segment boundary `q*k` returns the segment's first
sample. -/
theorem findLocalPeak_squareSeg (A : ℚ) (hA : 0 < A) (k L q e : ℕ)
    (h1 : q * k < e) (h2 : e ≤ L) :
    findLocalPeak (squareSeries A k L) DataAxis.az (q * k) e = some (segPeak A k q) := by
  unfold findLocalPeak
  rw [pickPeakIdx_constant (valAt (squareSeries A k L) DataAxis.az) (q * k) e h1 ?_]
  · show some _ = some (segPeak A k q)
    unfold segPeak
    rw [squareSeries_valAt A k L _ (by omega), squareSeries_getD A k L _ (by omega),
      squareWave_abs A hA k _]
  · intro j hj1 hj2
    rw [squareSeries_valAt A k L j (by omega), squareSeries_valAt A k L _ (by omega),
      squareWave_abs A hA k _, squareWave_abs A hA k _]

/-- The zero-crossing scan of `calculateStats` on the square-wave series:
starting at position `i` with `lastZC` at the enclosing segment boundary,
the remaining scan emits exactly one `segPeak` per completed segment and
ends with `lastZC` at the last segment's boundary. -/
theorem squareWave_scan (A : ℚ) (hA : 0 < A) (k L : ℕ) (hk : 1 ≤ k) (hL : 1 ≤ L) :
    ∀ (c i : ℕ) (P : List LocalPeak), i + c = L - 1 →
      (List.range' i c).foldl (zcScanStep (squareSeries A k L) DataAxis.az) ((i / k) * k, P) =
        (((L - 1) / k) * k,
          P ++ (List.range' (i / k) ((L - 1) / k - i / k)).map (segPeak A k)) := by
  intro c
  induction c with
  | zero =>
      intro i P hi
      have hieq : i = L - 1 := by omega
      subst hieq
      simp [List.range']
  | succ c ih =>
      intro i P hi
      rw [List.range'_succ, List.foldl_cons]
      have hiL : i + 1 ≤ L - 1 := by omega
      have hvi := squareSeries_valAt A k L i (by omega)
      have hvi1 := squareSeries_valAt A k L (i + 1) (by omega)
      by_cases hd : k ∣ (i + 1)
      · have hcross := (squareWave_crossing A hA k i).mpr hd
        have hfind : findLocalPeak (squareSeries A k L) DataAxis.az ((i / k) * k) (i + 1) =
            some (segPeak A k (i / k)) :=
          findLocalPeak_squareSeg A hA k L (i / k) (i + 1)
            (by have := Nat.div_mul_le_self i k; omega) (by omega)
        have hstep : zcScanStep (squareSeries A k L) DataAxis.az ((i / k) * k, P) i =
            (i + 1, P ++ [segPeak A k (i / k)]) := by
          unfold zcScanStep
          rw [if_pos (by rw [hvi, hvi1]; exact hcross)]
          rw [hfind]
        rw [hstep]
        have hq : (i + 1) / k * k = i + 1 := Nat.div_mul_cancel hd
        have hsucc : (i + 1) / k = i / k + 1 := by
          have := Nat.succ_div i k
          rw [if_pos hd] at this
          omega
        rw [show ((i + 1 : ℕ), P ++ [segPeak A k (i / k)]) =
          (((i + 1) / k) * k, P ++ [segPeak A k (i / k)]) from by rw [hq]]
        rw [ih (i + 1) (P ++ [segPeak A k (i / k)]) (by omega)]
        congr 1
        rw [List.append_assoc]
        congr 1
        have hD : i / k + 1 ≤ (L - 1) / k := by
          have : (i + 1) / k ≤ (L - 1) / k := Nat.div_le_div_right (by omega)
          omega
        rw [hsucc]
        rw [show (L - 1) / k - i / k = ((L - 1) / k - (i / k + 1)) + 1 from by omega]
        rw [List.range'_succ, List.map_cons]
        rfl
      · have hnc : ¬ isCrossing (valAt (squareSeries A k L) DataAxis.az i)
            (valAt (squareSeries A k L) DataAxis.az (i + 1)) := by
          rw [hvi, hvi1]
          exact fun h => hd ((squareWave_crossing A hA k i).mp h)
        have hstep : zcScanStep (squareSeries A k L) DataAxis.az ((i / k) * k, P) i =
            ((i / k) * k, P) := by
          unfold zcScanStep
          rw [if_neg hnc]
        rw [hstep]
        have hsucc : (i + 1) / k = i / k := by
          have := Nat.succ_div i k
          rw [if_neg hd] at this
          omega
        rw [show ((i / k * k : ℕ), P) = (((i + 1) / k) * k, P) from by rw [hsucc]]
        rw [ih (i + 1) P (by omega)]
        rw [hsucc]

/-- The local-peak list of `calculateStats` on the square wave: one peak per
segment, each at the segment's first sample. -/
theorem squareWave_zcPeaks (A : ℚ) (hA : 0 < A) (k L : ℕ) (hk : 1 ≤ k)
    (hL : k + 1 ≤ L) :
    zcPeaks (squareSeries A k L) DataAxis.az =
      (List.range' 0 ((L - 1) / k + 1)).map (segPeak A k) := by
  unfold zcPeaks
  rw [squareSeries_length, List.range_eq_range']
  have hscan := squareWave_scan A hA k L hk (by omega) (L - 1) 0 [] (by omega)
  rw [Nat.zero_div, Nat.zero_mul] at hscan
  rw [hscan]
  simp only [Nat.sub_zero, List.nil_append]
  have hlast : (L - 1) / k * k < L := by
    have := Nat.div_mul_le_self (L - 1) k
    omega
  rw [findLocalPeak_squareSeg A hA k L ((L - 1) / k) L hlast (le_refl L)]
  show List.map (segPeak A k) (List.range' 0 ((L - 1) / k)) ++ [segPeak A k ((L - 1) / k)] = _
  rw [List.range'_concat, List.map_append, Nat.zero_add, Nat.one_mul]
  rfl

theorem adjacentPairs_cons_cons (p1 p2 : LocalPeak) (rest : List LocalPeak) :
    adjacentPairs (p1 :: p2 :: rest) =
      if oppositeSigns p1 p2 then (p1.abs + p2.abs, p1, p2) :: adjacentPairs (p2 :: rest)
      else adjacentPairs (p2 :: rest) := rfl

theorem squareWave_at_mul (A : ℚ) (k s : ℕ) (hk : 1 ≤ k) :
    squareWave A k (s * k) = if s % 2 = 0 then A else -A := by
  unfold squareWave
  rw [Nat.mul_div_cancel s (by omega)]

theorem segPeak_oppositeSigns (A : ℚ) (hA : 0 < A) (k s : ℕ) (hk : 1 ≤ k) :
    oppositeSigns (segPeak A k s) (segPeak A k (s + 1)) := by
  unfold oppositeSigns segPeak
  simp only
  rw [squareWave_at_mul A k s hk, squareWave_at_mul A k (s + 1) hk]
  by_cases hp : s % 2 = 0
  · rw [if_pos hp, if_neg (by omega)]
    exact Or.inl ⟨hA, by linarith⟩
  · rw [if_neg hp, if_pos (by omega)]
    exact Or.inr ⟨by linarith, hA⟩

/-- Adjacent pairing on the square wave's peak list: every adjacent pair of
segment peaks has opposite signs and pair value `A + A`. -/
theorem squareWave_pairs (A : ℚ) (hA : 0 < A) (k : ℕ) (hk : 1 ≤ k) :
    ∀ (c s : ℕ), adjacentPairs ((List.range' s (c + 1)).map (segPeak A k)) =
      (List.range' s c).map (fun t => (A + A, segPeak A k t, segPeak A k (t + 1))) := by
  intro c
  induction c with
  | zero => intro s; rfl
  | succ c ih =>
      intro s
      rw [List.range'_succ, List.map_cons, List.range'_succ, List.map_cons,
        adjacentPairs_cons_cons, if_pos (segPeak_oppositeSigns A hA k s hk)]
      rw [← List.map_cons, ← List.range'_succ]
      rw [ih (s + 1)]
      rw [show List.range' s (c + 1) = s :: List.range' (s + 1) c from List.range'_succ s c 1,
        List.map_cons]
      rfl

/-- The pair-value list of the square wave: `(L-1)/k` copies of `A + A`. -/
theorem squareWave_pkPkValues (A : ℚ) (hA : 0 < A) (k L : ℕ) (hk : 1 ≤ k)
    (hL : k + 1 ≤ L) :
    pkPkValuesOf (squareSeries A k L) DataAxis.az =
      List.replicate ((L - 1) / k) (A + A) := by
  unfold pkPkValuesOf
  rw [squareWave_zcPeaks A hA k L hk hL]
  rw [squareWave_pairs A hA k hk ((L - 1) / k) 0]
  rw [List.map_map]
  rw [List.eq_replicate_iff]
  constructor
  · rw [List.length_map, List.length_range']
  · intro b hb
    rcases List.mem_map.mp hb with ⟨t, _, rfl⟩
    rfl

theorem maxPkPkFold_stay (pairs : List (ℚ × LocalPeak × LocalPeak)) :
    ∀ acc : ℚ × Option (Point × Point), (∀ item ∈ pairs, item.1 ≤ acc.1) →
      (pairs.foldl
        (fun acc item =>
          if item.1 > acc.1 then (item.1, some (orderPair item.2.1 item.2.2)) else acc)
        acc).1 = acc.1 := by
  induction pairs with
  | nil => intro acc _; rfl
  | cons item rest ih =>
      intro acc hall
      simp only [List.foldl_cons]
      rw [if_neg (not_lt.mpr (hall item (List.mem_cons_self item rest)))]
      exact ih acc (fun it hit => hall it (List.mem_cons_of_mem item hit))

theorem maxPkPkFold_const (pairs : List (ℚ × LocalPeak × LocalPeak)) (cval : ℚ)
    (hc : 0 < cval) (hall : ∀ item ∈ pairs, item.1 = cval) (hne : pairs ≠ []) :
    (maxPkPkFold pairs).1 = cval := by
  match pairs, hne with
  | item :: rest, _ =>
      unfold maxPkPkFold
      simp only [List.foldl_cons]
      have h1 : item.1 = cval := hall item (List.mem_cons_self item rest)
      rw [if_pos (by rw [h1]; exact hc)]
      rw [maxPkPkFold_stay rest _ ?_]
      · exact h1
      · intro it hit
        rw [hall it (List.mem_cons_of_mem item hit), h1]

/-- C2: on a symmetric square wave of amplitude `A > 0` alternating sign
every `k ≥ 1` samples (with at least one alternation, `L ≥ k + 1`), every
adjacent local-peak pair value is `2A` (the pair-value list is constant),
`pkPk = 2A`, `a95 = 2A`, and `zeroPk = A`. -/
theorem calculateStats_squareWave (A : ℚ) (k L : ℕ) (hA : 0 < A) (hk : 1 ≤ k)
    (hL : k + 1 ≤ L) :
    pkPkValuesOf (squareSeries A k L) DataAxis.az =
      List.replicate ((L - 1) / k) (2 * A) ∧
    (calculateStats (squareSeries A k L) DataAxis.az).pkPk = 2 * A ∧
    (calculateStats (squareSeries A k L) DataAxis.az).a95 = 2 * A ∧
    (calculateStats (squareSeries A k L) DataAxis.az).zeroPk = A := by
  have htwo : A + A = 2 * A := by ring
  have hvals := squareWave_pkPkValues A hA k L hk hL
  have hD : 1 ≤ (L - 1) / k := (Nat.one_le_div_iff (by omega)).mpr (by omega)
  have hne : pkPkValuesOf (squareSeries A k L) DataAxis.az ≠ [] := by
    rw [hvals]
    intro h
    have := congrArg List.length h
    simp only [List.length_replicate, List.length_nil] at this
    omega
  have hnlen : (squareSeries A k L).length ≠ 0 := by
    rw [squareSeries_length]
    omega
  have hdata_ne : squareSeries A k L ≠ [] := by
    intro h
    apply hnlen
    rw [h]
    rfl
  have hax : ¬ (DataAxis.az = DataAxis.vz ∨ DataAxis.az = DataAxis.sz) := by decide
  obtain ⟨hpk, ha95⟩ := calculateStats_main_branch _ DataAxis.az hnlen hax hne
  refine ⟨by rw [hvals, htwo], ?_, ?_, ?_⟩
  · rw [hpk, ← htwo]
    refine maxPkPkFold_const _ (A + A) (by linarith) ?_ ?_
    · intro item hitem
      rw [squareWave_zcPeaks A hA k L hk hL,
        squareWave_pairs A hA k hk ((L - 1) / k) 0] at hitem
      rcases List.mem_map.mp hitem with ⟨t, _, rfl⟩
      rfl
    · rw [squareWave_zcPeaks A hA k L hk hL, squareWave_pairs A hA k hk ((L - 1) / k) 0]
      intro h
      have := congrArg List.length h
      simp only [List.length_map, List.length_range', List.length_nil] at this
      omega
  · rw [ha95]
    have hsorted : (pkPkValuesOf (squareSeries A k L) DataAxis.az).insertionSort
        (fun a b => a ≤ b) = List.replicate ((L - 1) / k) (A + A) := by
      rw [List.eq_replicate_iff]
      constructor
      · rw [(List.perm_insertionSort _ _).length_eq, hvals, List.length_replicate]
      · intro b hb
        have hmem := (List.perm_insertionSort (fun a b => a ≤ b) _).mem_iff.mp hb
        rw [hvals] at hmem
        exact List.eq_of_mem_replicate hmem
    rw [hsorted]
    have hlen : (pkPkValuesOf (squareSeries A k L) DataAxis.az).length = (L - 1) / k := by
      rw [hvals, List.length_replicate]
    rw [hlen]
    have hidx : min (index95 ((L - 1) / k)) ((L - 1) / k - 1) <
        (List.replicate ((L - 1) / k) (A + A)).length := by
      rw [List.length_replicate]
      omega
    rw [List.getD_eq_getElem _ _ hidx, List.getElem_replicate, htwo]
  · obtain ⟨hpeq, _, hattain, _⟩ := calculateStats_peak_spec _ DataAxis.az hdata_ne
    rcases hattain with ⟨p, hp, hval⟩
    have habs : |axisVal p DataAxis.az| = A := by
      unfold squareSeries at hp
      rcases List.mem_map.mp hp with ⟨j, _, rfl⟩
      exact squareWave_abs A hA k j
    rw [← hpeq, ← hval, habs]

/-- Concrete instantiation of `calculateStats_squareWave` (amplitude 1,
alternation every sample, two samples). -/
theorem calculateStats_squareWave_witness :
    (0 : ℚ) < 1 ∧ (1 : ℕ) ≤ 1 ∧ (1 : ℕ) + 1 ≤ 2 ∧
    (calculateStats (squareSeries 1 1 2) DataAxis.az).pkPk = 2 * 1 ∧
    (calculateStats (squareSeries 1 1 2) DataAxis.az).a95 = 2 * 1 ∧
    (calculateStats (squareSeries 1 1 2) DataAxis.az).zeroPk = 1 :=
  ⟨by norm_num, by norm_num, by norm_num,
    (calculateStats_squareWave 1 1 2 (by norm_num) (by norm_num) (by norm_num)).2.1,
    (calculateStats_squareWave 1 1 2 (by norm_num) (by norm_num) (by norm_num)).2.2.1,
    (calculateStats_squareWave 1 1 2 (by norm_num) (by norm_num) (by norm_num)).2.2.2⟩

/-! ## FFT output band -/

/-- C4: every point returned by `calculateFFT` sits at a bin frequency
`i*fs/N` for some bin `i < N/2` with `1 ≤ frequency ≤ 200`; since the DC bin
`i = 0` has frequency 0 and is always excluded by the band check, every
returned magnitude carries the doubled one-sided normalisation
`2·sqrt(re²+im²)/N`.  In particular (for any sample rate, including 1600) no
returned point lies below 1 Hz or above 200 Hz. -/
theorem calculateFFT_band_restriction (data : List ℝ) (fs : ℝ) :
    List.Forall (fun pt =>
      1 ≤ pt.frequency ∧ pt.frequency ≤ 200 ∧
      ∃ i : ℕ, i < 2 ^ Nat.log2 data.length / 2 ∧ 0 < i ∧
        pt.frequency = (i : ℝ) * fs / ((2 ^ Nat.log2 data.length : ℕ) : ℝ) ∧
        pt.magnitude = 2 * Real.sqrt ((fftArray data i).re * (fftArray data i).re +
          (fftArray data i).im * (fftArray data i).im) /
          ((2 ^ Nat.log2 data.length : ℕ) : ℝ))
      (calculateFFT data fs) := by
  rw [List.forall_iff_forall_mem]
  intro pt hpt
  unfold calculateFFT at hpt
  by_cases h0 : data.length = 0
  · rw [if_pos h0] at hpt
    exact absurd hpt (List.not_mem_nil pt)
  · rw [if_neg h0] at hpt
    rcases List.mem_filterMap.mp hpt with ⟨i, hi, hout⟩
    dsimp only at hout
    by_cases hband : 1 ≤ (i : ℝ) * fs / ((2 ^ Nat.log2 data.length : ℕ) : ℝ) ∧
        (i : ℝ) * fs / ((2 ^ Nat.log2 data.length : ℕ) : ℝ) ≤ 200
    · rw [if_pos hband] at hout
      have hpt_eq := Option.some.inj hout
      have hipos : 0 < i := by
        rcases Nat.eq_zero_or_pos i with rfl | h
        · exfalso
          have hz : ((0 : ℕ) : ℝ) * fs / ((2 ^ Nat.log2 data.length : ℕ) : ℝ) = 0 := by
            simp
          rw [hz] at hband
          linarith [hband.1]
        · exact h
      rw [← hpt_eq]
      refine ⟨hband.1, hband.2, i, List.mem_range.mp hi, hipos, rfl, ?_⟩
      show (if 0 < i then
          2 * (Real.sqrt ((fftArray data i).re * (fftArray data i).re +
            (fftArray data i).im * (fftArray data i).im) /
            ((2 ^ Nat.log2 data.length : ℕ) : ℝ))
        else Real.sqrt ((fftArray data i).re * (fftArray data i).re +
            (fftArray data i).im * (fftArray data i).im) /
            ((2 ^ Nat.log2 data.length : ℕ) : ℝ)) = _
      rw [if_pos hipos, mul_div_assoc]
    · rw [if_neg hband] at hout
      exact absurd hout (by simp)

/-! ## Bit reversal arithmetic -/

theorem reverseBitsAux_split (b : ℕ) :
    ∀ (y x : ℕ), reverseBitsAux b y x = y * 2 ^ b + reverseBitsAux b 0 x := by
  induction b with
  | zero => intro y x; simp [reverseBitsAux]
  | succ b ih =>
      intro y x
      show reverseBitsAux b (2 * y + x % 2) (x / 2) = _
      rw [ih (2 * y + x % 2) (x / 2)]
      conv_rhs => rw [show reverseBitsAux (b + 1) 0 x = reverseBitsAux b (x % 2) (x / 2) from by
        show reverseBitsAux b (2 * 0 + x % 2) (x / 2) = _
        rw [Nat.mul_zero, Nat.zero_add]]
      rw [ih (x % 2) (x / 2)]
      ring

theorem reverseBits_succ (x b : ℕ) :
    reverseBits x (b + 1) = (x % 2) * 2 ^ b + reverseBits (x / 2) b := by
  unfold reverseBits
  show reverseBitsAux b (2 * 0 + x % 2) (x / 2) = _
  rw [Nat.mul_zero, Nat.zero_add, reverseBitsAux_split b (x % 2) (x / 2)]

theorem reverseBits_zero_bits (x : ℕ) : reverseBits x 0 = 0 := rfl

theorem reverseBits_lt (b : ℕ) : ∀ x, x < 2 ^ b → reverseBits x b < 2 ^ b := by
  induction b with
  | zero =>
      intro x hx
      rw [reverseBits_zero_bits]
      norm_num
  | succ b ih =>
      intro x hx
      rw [reverseBits_succ]
      have h1 : reverseBits (x / 2) b < 2 ^ b := ih (x / 2) (by
        have : 2 ^ (b + 1) = 2 ^ b * 2 := Nat.pow_succ 2 b
        omega)
      have h2 : x % 2 ≤ 1 := by omega
      have h3 : 2 ^ (b + 1) = 2 ^ b * 2 := Nat.pow_succ 2 b
      have h4 : (x % 2) * 2 ^ b ≤ 2 ^ b := by
        rcases Nat.le_one_iff_eq_zero_or_eq_one.mp h2 with h | h <;> rw [h] <;> omega
      omega

theorem reverseBits_dual (b : ℕ) :
    ∀ x, x < 2 ^ (b + 1) →
      reverseBits x (b + 1) = reverseBits (x % 2 ^ b) b * 2 + x / 2 ^ b := by
  induction b with
  | zero =>
      intro x hx
      rw [reverseBits_succ, reverseBits_zero_bits, reverseBits_zero_bits]
      simp only [pow_zero, pow_one] at hx ⊢
      omega
  | succ b ih =>
      intro x hx
      rw [reverseBits_succ]
      have hx2 : x / 2 < 2 ^ (b + 1) := by
        have : 2 ^ (b + 2) = 2 ^ (b + 1) * 2 := Nat.pow_succ 2 (b + 1)
        omega
      rw [ih (x / 2) hx2]
      conv_rhs => rw [reverseBits_succ]
      have e1 : x % 2 ^ (b + 1) % 2 = x % 2 :=
        Nat.mod_mod_of_dvd x ⟨2 ^ b, by rw [Nat.pow_succ, Nat.mul_comm]⟩
      have e2 : x % 2 ^ (b + 1) / 2 = x / 2 % 2 ^ b := by
        rw [show (2 : ℕ) ^ (b + 1) = 2 * 2 ^ b from by rw [Nat.pow_succ, Nat.mul_comm]]
        exact Nat.mod_mul_right_div_self x 2 (2 ^ b)
      have e3 : x / 2 / 2 ^ b = x / 2 ^ (b + 1) := by
        rw [Nat.div_div_eq_div_mul, show (2 : ℕ) * 2 ^ b = 2 ^ (b + 1) from by
          rw [Nat.pow_succ, Nat.mul_comm]]
      rw [e1, e2, e3]
      ring

theorem reverseBits_involution (b : ℕ) :
    ∀ x, x < 2 ^ b → reverseBits (reverseBits x b) b = x := by
  induction b with
  | zero =>
      intro x hx
      have hx0 : x = 0 := by
        simp only [pow_zero] at hx
        omega
      subst hx0
      rfl
  | succ b ih =>
      intro x hx
      have hx2 : x / 2 < 2 ^ b := by
        have h3 : 2 ^ (b + 1) = 2 ^ b * 2 := Nat.pow_succ 2 b
        omega
      have hrlt : reverseBits (x / 2) b < 2 ^ b := reverseBits_lt b (x / 2) hx2
      have hmod : (x % 2) * 2 ^ b ≤ 2 ^ b := by
        have : x % 2 ≤ 1 := by omega
        rcases Nat.le_one_iff_eq_zero_or_eq_one.mp this with h | h <;> rw [h] <;> omega
      have hy : (x % 2) * 2 ^ b + reverseBits (x / 2) b < 2 ^ (b + 1) := by
        have h3 : 2 ^ (b + 1) = 2 ^ b * 2 := Nat.pow_succ 2 b
        omega
      rw [show reverseBits x (b + 1) = (x % 2) * 2 ^ b + reverseBits (x / 2) b from
        reverseBits_succ x b]
      rw [reverseBits_dual b _ hy]
      have e1 : ((x % 2) * 2 ^ b + reverseBits (x / 2) b) % 2 ^ b = reverseBits (x / 2) b := by
        rw [Nat.add_comm, Nat.add_mul_mod_self_right, Nat.mod_eq_of_lt hrlt]
      have e2 : ((x % 2) * 2 ^ b + reverseBits (x / 2) b) / 2 ^ b = x % 2 := by
        rw [Nat.add_comm, Nat.add_mul_div_right _ _ (Nat.pos_pow_of_pos b (by omega)),
          Nat.div_eq_of_lt hrlt, Nat.zero_add]
      rw [e1, e2, ih (x / 2) hx2]
      omega

/-! ## The bit-reversal permutation pass -/

/-- Invariant of the conditional-swap loop: positions whose swap (or whose
partner's swap) has been processed hold the permuted value, the rest are
untouched.  Processing the whole range leaves the bit-reversal permutation
of the initial array. -/
theorem bitRevFold_aux (bits : ℕ) (f : ℕ → ℂ) :
    ∀ (c t : ℕ) (g : ℕ → ℂ), t + c = 2 ^ bits →
      (∀ j, j < 2 ^ bits → (j < t ∨ reverseBits j bits < t) →
        g j = f (reverseBits j bits)) →
      (∀ j, j < 2 ^ bits → t ≤ j → t ≤ reverseBits j bits → g j = f j) →
      (∀ j, 2 ^ bits ≤ j → g j = f j) →
      ∀ j, ((List.range' t c).foldl
        (fun g i => if reverseBits i bits > i then swapF g i (reverseBits i bits) else g)
        g) j =
        if j < 2 ^ bits then f (reverseBits j bits) else f j := by
  intro c
  induction c with
  | zero =>
      intro t g ht h1 h2 h3 j
      rw [show List.range' t 0 = [] from rfl, List.foldl_nil]
      by_cases hj : j < 2 ^ bits
      · rw [if_pos hj]
        exact h1 j hj (Or.inl (by omega))
      · rw [if_neg hj]
        exact h3 j (by omega)
  | succ c ih =>
      intro t g ht h1 h2 h3 j
      rw [List.range'_succ, List.foldl_cons]
      have htlt : t < 2 ^ bits := by omega
      have hrt_lt : reverseBits t bits < 2 ^ bits := reverseBits_lt bits t htlt
      have hinv : reverseBits (reverseBits t bits) bits = t :=
        reverseBits_involution bits t htlt
      by_cases hsw : reverseBits t bits > t
      · rw [if_pos hsw]
        refine ih (t + 1) _ (by omega) ?_ ?_ ?_ j
        · intro j' hj' hcond
          unfold swapF
          by_cases hjt : j' = t
          · rw [if_pos hjt]
            subst hjt
            exact h2 (reverseBits j' bits) hrt_lt (by omega) (by rw [hinv])
          · by_cases hjr : j' = reverseBits t bits
            · rw [if_neg hjt, if_pos hjr]
              rw [show reverseBits j' bits = t from by rw [hjr, hinv]]
              exact h2 t htlt (le_refl t) (by omega)
            · rw [if_neg hjt, if_neg hjr]
              apply h1 j' hj'
              have hrevne : reverseBits j' bits ≠ t := by
                intro h
                apply hjr
                rw [← h, reverseBits_involution bits j' hj']
              omega
        · intro j' hj' hj1 hj2
          unfold swapF
          have hner : j' ≠ reverseBits t bits := by
            intro h
            have : reverseBits j' bits = t := by rw [h, hinv]
            omega
          rw [if_neg (by omega), if_neg hner]
          exact h2 j' hj' (by omega) (by omega)
        · intro j' hj'
          unfold swapF
          rw [if_neg (by omega), if_neg (by omega)]
          exact h3 j' hj'
      · rw [if_neg hsw]
        refine ih (t + 1) g (by omega) ?_ ?_ h3 j
        · intro j' hj' hcond
          rcases hcond with hlt | hlt
          · rcases Nat.lt_succ_iff_lt_or_eq.mp hlt with h | h
            · exact h1 j' hj' (Or.inl h)
            · subst h
              rcases Nat.lt_or_ge (reverseBits j' bits) j' with hc | hc
              · exact h1 j' hj' (Or.inr hc)
              · have heq : reverseBits j' bits = j' := by omega
                rw [heq]
                exact h2 j' hj' (le_refl _) (by omega)
          · rcases Nat.lt_succ_iff_lt_or_eq.mp hlt with h | h
            · exact h1 j' hj' (Or.inr h)
            · have hj'eq : j' = reverseBits t bits := by
                rw [← h, reverseBits_involution bits j' hj']
              rcases Nat.lt_or_ge j' t with hc | hc
              · exact h1 j' hj' (Or.inl hc)
              · have hjt : j' = t := by omega
                subst hjt
                rw [h]
                exact h2 j' hj' (le_refl _) (by omega)
        · intro j' hj' hj1 hj2
          exact h2 j' hj' (by omega) (by omega)

/-- The net effect of the bit-reversal loop of `calculateFFT` is the
bit-reversal permutation. -/
theorem bitReversePass_spec (bits : ℕ) (f : ℕ → ℂ) (j : ℕ) :
    bitReversePass bits (2 ^ bits) f j =
      if j < 2 ^ bits then f (reverseBits j bits) else f j := by
  unfold bitReversePass
  rw [List.range_eq_range']
  refine bitRevFold_aux bits f (2 ^ bits) 0 f (by omega) ?_ (fun j _ _ _ => rfl)
    (fun j _ => rfl) j
  intro j' _ hc
  rcases hc with h | h <;> exact absurd h (Nat.not_lt_zero _)

/-! ## The butterfly loops -/

/-- The inner butterfly loop transforms exactly the index pairs
`(k+j', k+j'+m2)` for the remaining iterations `j ≤ j' < j+c`, writing
`u + t` and `u - t` with twiddle `w·wm^(j'-j)`, and leaves everything else
unchanged. -/
theorem innerBfly_spec (wm : ℂ) (k m2 : ℕ) :
    ∀ (c j : ℕ) (w : ℂ) (f : ℕ → ℂ), j + c ≤ m2 →
      ∀ idx, innerBfly wm k m2 c j w f idx =
        if k + j ≤ idx ∧ idx < k + j + c then
          f idx + w * wm ^ (idx - (k + j)) * f (idx + m2)
        else if k + m2 + j ≤ idx ∧ idx < k + m2 + j + c then
          f (idx - m2) - w * wm ^ (idx - (k + m2 + j)) * f idx
        else f idx := by
  intro c
  induction c with
  | zero =>
      intro j w f hc idx
      show f idx = _
      rw [if_neg (by omega), if_neg (by omega)]
  | succ c ih =>
      intro j w f hc idx
      show innerBfly wm k m2 c (j + 1) (w * wm)
        (fun i => if i = k + j then f (k + j) + w * f (k + j + m2)
          else if i = k + j + m2 then f (k + j) - w * f (k + j + m2) else f i) idx = _
      rw [ih (j + 1) (w * wm) _ (by omega) idx]
      by_cases h1 : k + (j + 1) ≤ idx ∧ idx < k + (j + 1) + c
      · rw [if_pos h1]
        rw [if_neg (by omega), if_neg (by omega), if_neg (by omega), if_neg (by omega)]
        rw [if_pos (show k + j ≤ idx ∧ idx < k + j + (c + 1) from by omega)]
        have hd : idx - (k + j) = (idx - (k + (j + 1))) + 1 := by omega
        rw [hd, pow_succ]
        ring
      · rw [if_neg h1]
        by_cases h2 : k + m2 + (j + 1) ≤ idx ∧ idx < k + m2 + (j + 1) + c
        · rw [if_pos h2]
          rw [if_neg (by omega), if_neg (by omega), if_neg (by omega), if_neg (by omega)]
          rw [if_neg (by omega),
            if_pos (show k + m2 + j ≤ idx ∧ idx < k + m2 + j + (c + 1) from by omega)]
          have hd : idx - (k + m2 + j) = (idx - (k + m2 + (j + 1))) + 1 := by omega
          rw [hd, pow_succ]
          ring
        · rw [if_neg h2]
          by_cases h3 : idx = k + j
          · subst h3
            rw [if_pos rfl]
            rw [if_pos (show k + j ≤ k + j ∧ k + j < k + j + (c + 1) from by omega)]
            rw [Nat.sub_self, pow_zero]
            ring
          · rw [if_neg h3]
            by_cases h4 : idx = k + j + m2
            · subst h4
              rw [if_pos rfl]
              rw [if_neg (by omega),
                if_pos (show k + m2 + j ≤ k + j + m2 ∧ k + j + m2 < k + m2 + j + (c + 1)
                  from by omega)]
              rw [show k + j + m2 - m2 = k + j from by omega,
                show k + j + m2 - (k + m2 + j) = 0 from by omega, pow_zero]
              ring
            · rw [if_neg h4]
              rw [if_neg (by omega), if_neg (by omega)]

/-- The block loop of one butterfly stage: each block of `m = 2·m2`
consecutive indices starting at `k` is transformed independently by the
butterfly formulas; indices outside `[k, k + b·m)` are unchanged. -/
theorem stageBlocks_spec (wm : ℂ) (m m2 : ℕ) (hm : m = m2 + m2) (hm2 : 1 ≤ m2) :
    ∀ (b k : ℕ) (f : ℕ → ℂ) (idx : ℕ),
      stageBlocks wm m m2 b k f idx =
        if k ≤ idx ∧ idx < k + b * m then
          (if (idx - k) % m < m2 then
            f idx + wm ^ ((idx - k) % m) * f (idx + m2)
          else
            f (idx - m2) - wm ^ ((idx - k) % m - m2) * f idx)
        else f idx := by
  intro b
  induction b with
  | zero =>
      intro k f idx
      show f idx = _
      rw [if_neg (by omega)]
  | succ b ih =>
      intro k f idx
      show stageBlocks wm m m2 b (k + m) (innerBfly wm k m2 m2 0 1 f) idx = _
      rw [ih (k + m) _ idx, Nat.succ_mul]
      have hg : ∀ i, innerBfly wm k m2 m2 0 1 f i =
          if k ≤ i ∧ i < k + m2 then f i + wm ^ (i - k) * f (i + m2)
          else if k + m2 ≤ i ∧ i < k + m2 + m2 then
            f (i - m2) - wm ^ (i - (k + m2)) * f i
          else f i := by
        intro i
        rw [innerBfly_spec wm k m2 m2 0 1 f (by omega) i]
        by_cases hc1 : k + 0 ≤ i ∧ i < k + 0 + m2
        · rw [if_pos hc1, if_pos (show k ≤ i ∧ i < k + m2 from by omega), one_mul]
          rw [show i - (k + 0) = i - k from by omega]
        · rw [if_neg hc1, if_neg (show ¬(k ≤ i ∧ i < k + m2) from by omega)]
          by_cases hc2 : k + m2 + 0 ≤ i ∧ i < k + m2 + 0 + m2
          · rw [if_pos hc2, if_pos (show k + m2 ≤ i ∧ i < k + m2 + m2 from by omega), one_mul]
            rw [show i - (k + m2 + 0) = i - (k + m2) from by omega]
          · rw [if_neg hc2, if_neg (show ¬(k + m2 ≤ i ∧ i < k + m2 + m2) from by omega)]
      by_cases hmain : k + m ≤ idx ∧ idx < k + m + b * m
      · rw [if_pos hmain]
        obtain ⟨e, rfl⟩ : ∃ e, idx = k + m + e := ⟨idx - (k + m), by omega⟩
        rw [show k + m + e - (k + m) = e from by omega,
          show k + m + e - k = m + e from by omega, Nat.add_mod_left m e]
        have hemod : e % m ≤ e := Nat.mod_le e m
        have hemlt : e % m < m := Nat.mod_lt e (by omega)
        by_cases hr : e % m < m2
        · rw [if_pos hr, if_pos (show k ≤ k + m + e ∧ k + m + e < k + (b * m + m) from
            by omega), if_pos hr]
          rw [hg (k + m + e), hg (k + m + e + m2)]
          rw [if_neg (by omega), if_neg (by omega), if_neg (by omega), if_neg (by omega)]
        · rw [if_neg hr, if_pos (show k ≤ k + m + e ∧ k + m + e < k + (b * m + m) from
            by omega), if_neg hr]
          rw [hg (k + m + e - m2), hg (k + m + e)]
          rw [if_neg (by omega), if_neg (by omega), if_neg (by omega), if_neg (by omega)]
      · rw [if_neg hmain, hg idx]
        by_cases houter : k ≤ idx ∧ idx < k + (b * m + m)
        · rw [if_pos houter]
          -- here k ≤ idx < k + m
          have hin : idx < k + m := by omega
          have hmodeq : (idx - k) % m = idx - k := Nat.mod_eq_of_lt (by omega)
          rw [hmodeq]
          by_cases hr : idx - k < m2
          · rw [if_pos (show k ≤ idx ∧ idx < k + m2 from by omega), if_pos hr]
          · rw [if_neg (show ¬(k ≤ idx ∧ idx < k + m2) from by omega),
              if_pos (show k + m2 ≤ idx ∧ idx < k + m2 + m2 from by omega), if_neg hr]
            rw [show idx - (k + m2) = idx - k - m2 from by omega]
        · rw [if_neg houter]
          rw [if_neg (by omega), if_neg (by omega)]

/-! ## Roots of unity -/

theorem cos_neg_sin_eq_exp (θ : ℝ) :
    (⟨Real.cos θ, -Real.sin θ⟩ : ℂ) = Complex.exp (-(θ : ℂ) * Complex.I) := by
  have h : -(θ : ℂ) * Complex.I = ((-θ : ℝ) : ℂ) * Complex.I := by
    push_cast
    ring
  apply Complex.ext
  · rw [h, Complex.exp_ofReal_mul_I_re, Real.cos_neg]
  · rw [h, Complex.exp_ofReal_mul_I_im, Real.sin_neg]

theorem stage_wm_eq (m2 : ℕ) (h : 1 ≤ m2) :
    (⟨Real.cos (Real.pi / (m2 : ℝ)), -Real.sin (Real.pi / (m2 : ℝ))⟩ : ℂ) =
      omegaC (2 * m2) 1 := by
  rw [cos_neg_sin_eq_exp]
  unfold omegaC
  congr 1
  have hm : ((m2 : ℕ) : ℂ) ≠ 0 := by
    exact_mod_cast Nat.cast_ne_zero.mpr (by omega)
  push_cast
  field_simp
  ring

theorem omegaC_pow (M r : ℕ) : omegaC M 1 ^ r = omegaC M r := by
  unfold omegaC
  rw [← Complex.exp_nat_mul]
  congr 1
  push_cast
  ring

theorem omegaC_add (M a b : ℕ) : omegaC M a * omegaC M b = omegaC M (a + b) := by
  unfold omegaC
  rw [← Complex.exp_add]
  congr 1
  push_cast
  ring

theorem omegaC_half (M a : ℕ) (hM : 1 ≤ M) : omegaC (2 * M) (2 * a) = omegaC M a := by
  unfold omegaC
  congr 1
  have hm : ((M : ℕ) : ℂ) ≠ 0 := by
    exact_mod_cast Nat.cast_ne_zero.mpr (by omega)
  push_cast
  field_simp
  ring

theorem omegaC_period (M a t : ℕ) (hM : 1 ≤ M) : omegaC M (a + M * t) = omegaC M a := by
  unfold omegaC
  have hm : ((M : ℕ) : ℂ) ≠ 0 := by
    exact_mod_cast Nat.cast_ne_zero.mpr (by omega)
  have hsplit : -(2 * (Real.pi : ℂ) * Complex.I) * ((a + M * t : ℕ) : ℂ) / (M : ℂ) =
      -(2 * (Real.pi : ℂ) * Complex.I) * (a : ℂ) / (M : ℂ) +
        ((-(t : ℤ) : ℤ) : ℂ) * (2 * (Real.pi : ℂ) * Complex.I) := by
    push_cast
    field_simp
    ring
  rw [hsplit, Complex.exp_add, Complex.exp_int_mul_two_pi_mul_I, mul_one]

theorem omegaC_half_turn (M : ℕ) (hM : 1 ≤ M) : omegaC (2 * M) M = -1 := by
  unfold omegaC
  have hm : ((M : ℕ) : ℂ) ≠ 0 := by
    exact_mod_cast Nat.cast_ne_zero.mpr (by omega)
  have harg : -(2 * (Real.pi : ℂ) * Complex.I) * (M : ℂ) / ((2 * M : ℕ) : ℂ) =
      -((Real.pi : ℂ) * Complex.I) := by
    push_cast
    field_simp
    ring
  rw [harg, Complex.exp_neg, Complex.exp_pi_mul_I]
  norm_num

theorem sum_range_even_odd (g : ℕ → ℂ) :
    ∀ n, ∑ j ∈ Finset.range (2 * n), g j =
      (∑ j ∈ Finset.range n, g (2 * j)) + ∑ j ∈ Finset.range n, g (2 * j + 1) := by
  intro n
  induction n with
  | zero => simp
  | succ n ih =>
      rw [show 2 * (n + 1) = 2 * n + 1 + 1 from by ring]
      rw [Finset.sum_range_succ, Finset.sum_range_succ, Finset.sum_range_succ,
        Finset.sum_range_succ, ih]
      ring

/-! ## Index decomposition helpers -/

theorem split_div_low (M2 q r : ℕ) (hM2 : 1 ≤ M2) (hr : r < M2) :
    (2 * M2 * q + r) / M2 = 2 * q ∧ (2 * M2 * q + r) % M2 = r := by
  constructor
  · rw [show 2 * M2 * q + r = r + 2 * q * M2 from by ring,
      Nat.add_mul_div_right _ _ (by omega), Nat.div_eq_of_lt hr, Nat.zero_add]
  · rw [show 2 * M2 * q + r = r + 2 * q * M2 from by ring,
      Nat.add_mul_mod_self_right, Nat.mod_eq_of_lt hr]

theorem split_div_high (M2 q r : ℕ) (hM2 : 1 ≤ M2) (hr : r < M2) :
    (2 * M2 * q + (M2 + r)) / M2 = 2 * q + 1 ∧ (2 * M2 * q + (M2 + r)) % M2 = r := by
  constructor
  · rw [show 2 * M2 * q + (M2 + r) = r + (2 * q + 1) * M2 from by ring,
      Nat.add_mul_div_right _ _ (by omega), Nat.div_eq_of_lt hr, Nat.zero_add]
  · rw [show 2 * M2 * q + (M2 + r) = r + (2 * q + 1) * M2 from by ring,
      Nat.add_mul_mod_self_right, Nat.mod_eq_of_lt hr]

theorem split_div_full (M q r : ℕ) (hM : 1 ≤ M) (hr : r < M) :
    (M * q + r) / M = q ∧ (M * q + r) % M = r := by
  constructor
  · rw [show M * q + r = r + q * M from by ring,
      Nat.add_mul_div_right _ _ (by omega), Nat.div_eq_of_lt hr, Nat.zero_add]
  · rw [show M * q + r = r + q * M from by ring,
      Nat.add_mul_mod_self_right, Nat.mod_eq_of_lt hr]

theorem reverseBits_two_mul (q b : ℕ) :
    reverseBits (2 * q) (b + 1) = reverseBits q b := by
  rw [reverseBits_succ]
  rw [show 2 * q % 2 = 0 from by omega, show 2 * q / 2 = q from by omega]
  simp

theorem reverseBits_two_mul_add_one (q b : ℕ) :
    reverseBits (2 * q + 1) (b + 1) = 2 ^ b + reverseBits q b := by
  rw [reverseBits_succ]
  rw [show (2 * q + 1) % 2 = 1 from by omega, show (2 * q + 1) / 2 = q from by omega,
    one_mul]

/-- One butterfly stage lifts the DIT invariant from level `s` to level
`s + 1`: if every array slot holds the DFT of its even/odd-split
subsequence at block size `2^s`, then after the stage it holds it at block
size `2^(s+1)`. -/
theorem fft_stage_step (x : ℕ → ℂ) (p s : ℕ) (hs : s < p) (f : ℕ → ℂ)
    (hf : ∀ idx, idx < 2 ^ p → f idx =
      ∑ j ∈ Finset.range (2 ^ s),
        x (j * 2 ^ (p - s) + reverseBits (idx / 2 ^ s) (p - s)) *
          omegaC (2 ^ s) ((idx % 2 ^ s) * j)) :
    ∀ idx, idx < 2 ^ p →
      stageBlocks
        ⟨Real.cos (Real.pi / ((2 ^ s : ℕ) : ℝ)), -Real.sin (Real.pi / ((2 ^ s : ℕ) : ℝ))⟩
        (2 ^ (s + 1)) (2 ^ s) (2 ^ p / 2 ^ (s + 1)) 0 f idx =
      ∑ j ∈ Finset.range (2 ^ (s + 1)),
        x (j * 2 ^ (p - (s + 1)) + reverseBits (idx / 2 ^ (s + 1)) (p - (s + 1))) *
          omegaC (2 ^ (s + 1)) ((idx % 2 ^ (s + 1)) * j) := by
  intro idx hidx
  have hM2pos : 1 ≤ 2 ^ s := Nat.one_le_two_pow
  have hb : p - s = (p - s - 1) + 1 := by omega
  have hpow : 2 ^ (p - s) = 2 ^ (p - s - 1) * 2 := by rw [hb, pow_succ, Nat.add_sub_cancel]
  rw [stageBlocks_spec _ _ _ (by rw [pow_succ]; omega) hM2pos]
  have hdvd : (2 : ℕ) ^ (s + 1) ∣ 2 ^ p := pow_dvd_pow 2 (by omega)
  have hNm : 2 ^ p / 2 ^ (s + 1) * 2 ^ (s + 1) = 2 ^ p := Nat.div_mul_cancel hdvd
  rw [if_pos (show 0 ≤ idx ∧ idx < 0 + 2 ^ p / 2 ^ (s + 1) * 2 ^ (s + 1) from
    ⟨Nat.zero_le _, by rw [Nat.zero_add, hNm]; exact hidx⟩)]
  rw [Nat.sub_zero]
  rw [show (2 : ℕ) ^ (s + 1) = 2 * 2 ^ s from by rw [pow_succ]; ring] at hdvd ⊢
  rw [show p - (s + 1) = p - s - 1 from by omega]
  obtain ⟨Q, hQ⟩ := hdvd
  obtain ⟨q, t, rfl, ht⟩ : ∃ q t, idx = 2 * 2 ^ s * q + t ∧ t < 2 * 2 ^ s :=
    ⟨idx / (2 * 2 ^ s), idx % (2 * 2 ^ s), (Nat.div_add_mod idx (2 * 2 ^ s)).symm,
      Nat.mod_lt idx (by omega)⟩
  obtain ⟨hdivF, hmodF⟩ := split_div_full (2 * 2 ^ s) q t (by omega) ht
  rw [hdivF, hmodF]
  have hqQ : q < Q := by
    by_contra hq
    have : 2 * 2 ^ s * Q ≤ 2 * 2 ^ s * q := Nat.mul_le_mul_left _ (by omega)
    omega
  have hq1Q : 2 * 2 ^ s * (q + 1) ≤ 2 * 2 ^ s * Q := Nat.mul_le_mul_left _ (by omega)
  by_cases hr : t < 2 ^ s
  · rw [if_pos hr]
    obtain ⟨hdivL, hmodL⟩ := split_div_low (2 ^ s) q t hM2pos hr
    obtain ⟨hdivH, hmodH⟩ := split_div_high (2 ^ s) q t hM2pos hr
    have hbound : 2 * 2 ^ s * q + t + 2 ^ s < 2 ^ p := by
      have h1 : 2 * 2 ^ s * (q + 1) = 2 * 2 ^ s * q + 2 * 2 ^ s := by ring
      omega
    have hfl := hf (2 * 2 ^ s * q + t) hidx
    rw [hdivL, hmodL] at hfl
    have hfh := hf (2 * 2 ^ s * q + t + 2 ^ s) hbound
    rw [show 2 * 2 ^ s * q + t + 2 ^ s = 2 * 2 ^ s * q + (2 ^ s + t) from by ring,
      hdivH, hmodH] at hfh
    rw [show 2 * 2 ^ s * q + t + 2 ^ s = 2 * 2 ^ s * q + (2 ^ s + t) from by ring,
      hfl, hfh]
    rw [sum_range_even_odd, Finset.mul_sum]
    congr 1
    · refine Finset.sum_congr rfl ?_
      intro j _
      rw [show t * (2 * j) = 2 * (t * j) from by ring, omegaC_half _ _ hM2pos]
      rw [show 2 * j * 2 ^ (p - s - 1) = j * 2 ^ (p - s) from by rw [hpow]; ring]
      rw [show reverseBits (2 * q) (p - s) = reverseBits q (p - s - 1) from by
        rw [hb, reverseBits_two_mul, Nat.add_sub_cancel]]
    · refine Finset.sum_congr rfl ?_
      intro j _
      rw [show t * (2 * j + 1) = 2 * (t * j) + t from by ring, ← omegaC_add,
        omegaC_half _ _ hM2pos]
      rw [show (2 * j + 1) * 2 ^ (p - s - 1) = j * 2 ^ (p - s) + 2 ^ (p - s - 1) from by
        rw [hpow]; ring]
      rw [stage_wm_eq (2 ^ s) hM2pos, omegaC_pow]
      rw [show reverseBits (2 * q + 1) (p - s) = 2 ^ (p - s - 1) + reverseBits q (p - s - 1)
        from by rw [hb, reverseBits_two_mul_add_one, Nat.add_sub_cancel]]
      rw [show j * 2 ^ (p - s) + 2 ^ (p - s - 1) + reverseBits q (p - s - 1) =
        j * 2 ^ (p - s) + (2 ^ (p - s - 1) + reverseBits q (p - s - 1)) from by ring]
      ring
  · rw [if_neg hr]
    obtain ⟨t', rfl⟩ : ∃ t', t = 2 ^ s + t' := ⟨t - 2 ^ s, by omega⟩
    have ht' : t' < 2 ^ s := by omega
    obtain ⟨hdivL, hmodL⟩ := split_div_low (2 ^ s) q t' hM2pos ht'
    obtain ⟨hdivH, hmodH⟩ := split_div_high (2 ^ s) q t' hM2pos ht'
    have hsub : 2 * 2 ^ s * q + (2 ^ s + t') - 2 ^ s = 2 * 2 ^ s * q + t' := by omega
    have hfl := hf (2 * 2 ^ s * q + t') (by omega)
    rw [hdivL, hmodL] at hfl
    have hfh := hf (2 * 2 ^ s * q + (2 ^ s + t')) hidx
    rw [hdivH, hmodH] at hfh
    rw [hsub, show 2 ^ s + t' - 2 ^ s = t' from by omega, hfl, hfh]
    rw [sum_range_even_odd, Finset.mul_sum]
    rw [show ∀ S T : ℂ, S - T = S + -T from fun S T => sub_eq_add_neg S T]
    rw [← Finset.sum_neg_distrib]
    congr 1
    · refine Finset.sum_congr rfl ?_
      intro j _
      rw [show (2 ^ s + t') * (2 * j) = 2 * ((2 ^ s + t') * j) from by ring,
        omegaC_half _ _ hM2pos]
      rw [show (2 ^ s + t') * j = t' * j + 2 ^ s * j from by ring,
        omegaC_period _ _ _ hM2pos]
      rw [show 2 * j * 2 ^ (p - s - 1) = j * 2 ^ (p - s) from by rw [hpow]; ring]
      rw [show reverseBits (2 * q) (p - s) = reverseBits q (p - s - 1) from by
        rw [hb, reverseBits_two_mul, Nat.add_sub_cancel]]
    · refine Finset.sum_congr rfl ?_
      intro j _
      rw [show (2 ^ s + t') * (2 * j + 1) = 2 * ((2 ^ s + t') * j) + (2 ^ s + t') from by
        ring, ← omegaC_add, omegaC_half _ _ hM2pos]
      rw [show (2 ^ s + t') * j = t' * j + 2 ^ s * j from by ring,
        omegaC_period _ _ _ hM2pos]
      rw [← omegaC_add, omegaC_half_turn _ hM2pos]
      rw [stage_wm_eq (2 ^ s) hM2pos, omegaC_pow]
      rw [show (2 * j + 1) * 2 ^ (p - s - 1) = j * 2 ^ (p - s) + 2 ^ (p - s - 1) from by
        rw [hpow]; ring]
      rw [show reverseBits (2 * q + 1) (p - s) = 2 ^ (p - s - 1) + reverseBits q (p - s - 1)
        from by rw [hb, reverseBits_two_mul_add_one, Nat.add_sub_cancel]]
      rw [show j * 2 ^ (p - s) + 2 ^ (p - s - 1) + reverseBits q (p - s - 1) =
        j * 2 ^ (p - s) + (2 ^ (p - s - 1) + reverseBits q (p - s - 1)) from by ring]
      ring

theorem omegaC_zero (M : ℕ) : omegaC M 0 = 1 := by
  unfold omegaC
  rw [Nat.cast_zero, mul_zero, zero_div, Complex.exp_zero]

theorem fftStages_succ (N c s : ℕ) (f : ℕ → ℂ) :
    fftStages N (c + 1) s f =
      fftStages N c (s + 1)
        (stageBlocks
          ⟨Real.cos (Real.pi / ((2 ^ s / 2 : ℕ) : ℝ)),
            -Real.sin (Real.pi / ((2 ^ s / 2 : ℕ) : ℝ))⟩
          (2 ^ s) (2 ^ s / 2) (N / 2 ^ s) 0 f) := rfl

/-- The butterfly stages, run from stage `s + 1` with `c` stages remaining
(`s + c = p`), turn the level-`s` decimation-in-time invariant into the
level-`p` one, i.e. into the full DFT of the bit-reversed input blocks. -/
theorem fftStages_spec (x : ℕ → ℂ) (p : ℕ) :
    ∀ c s (f : ℕ → ℂ), s + c = p →
      (∀ idx, idx < 2 ^ p → f idx =
        ∑ j ∈ Finset.range (2 ^ s),
          x (j * 2 ^ (p - s) + reverseBits (idx / 2 ^ s) (p - s)) *
            omegaC (2 ^ s) ((idx % 2 ^ s) * j)) →
      ∀ idx, idx < 2 ^ p → fftStages (2 ^ p) c (s + 1) f idx =
        ∑ j ∈ Finset.range (2 ^ p),
          x (j * 2 ^ (p - p) + reverseBits (idx / 2 ^ p) (p - p)) *
            omegaC (2 ^ p) ((idx % 2 ^ p) * j) := by
  intro c
  induction c with
  | zero =>
      intro s f hsp hf idx hidx
      have hsp' : s = p := by omega
      subst hsp'
      exact hf idx hidx
  | succ c ih =>
      intro s f hsp hf idx hidx
      have hs : s < p := by omega
      have hm2 : (2 : ℕ) ^ (s + 1) / 2 = 2 ^ s := by
        rw [pow_succ]
        exact Nat.mul_div_cancel _ (by omega)
      rw [fftStages_succ]
      rw [hm2]
      exact ih (s + 1) _ (by omega) (fft_stage_step x p s hs f hf) idx hidx

/-- After the bit-reversal pass, each slot `idx < 2^p` holds the level-0
invariant: the single input sample at the bit-reversed index. -/
theorem fft_base_inv (data : List ℝ) (p : ℕ) :
    ∀ idx, idx < 2 ^ p →
      bitReversePass p (2 ^ p) (fftInit data (2 ^ p)) idx =
        ∑ j ∈ Finset.range (2 ^ 0),
          ((data.getD (j * 2 ^ (p - 0) + reverseBits (idx / 2 ^ 0) (p - 0)) 0 : ℝ) : ℂ) *
            omegaC (2 ^ 0) ((idx % 2 ^ 0) * j) := by
  intro idx hidx
  rw [bitReversePass_spec, if_pos hidx]
  simp only [Finset.sum_range_one, Nat.sub_zero, pow_zero, Nat.div_one, Nat.mod_one,
    zero_mul, mul_zero, zero_add, omegaC_zero, mul_one, one_mul]
  unfold fftInit
  rw [if_pos (reverseBits_lt p idx hidx)]

/-- C3: for every input of length at least 2, the in-place radix-2
Cooley-Tukey computation of `calculateFFT` (bit-reversal permutation followed
by `log2(N)` butterfly stages with twiddle factors `(cos(π/m2), -sin(π/m2))`)
equals, in exact real arithmetic, the reference discrete Fourier transform of
the first `N = 2^⌊log2 n⌋` input samples: every complex bin `t < N` of
`fftArray` equals `dft` of those samples, so only the first `N` samples are
used. -/
theorem calculateFFT_matches_dft (data : List ℝ) (h2 : 2 ≤ data.length) :
    ∀ t, t < 2 ^ Nat.log2 data.length →
      fftArray data t =
        dft (fun j => ((data.getD j 0 : ℝ) : ℂ)) (2 ^ Nat.log2 data.length) t := by
  intro t ht
  show fftStages (2 ^ Nat.log2 data.length) (Nat.log2 data.length) 1
    (bitReversePass (Nat.log2 data.length) (2 ^ Nat.log2 data.length)
      (fftInit data (2 ^ Nat.log2 data.length))) t =
    dft (fun j => ((data.getD j 0 : ℝ) : ℂ)) (2 ^ Nat.log2 data.length) t
  have h := fftStages_spec (fun j => ((data.getD j 0 : ℝ) : ℂ)) (Nat.log2 data.length)
    (Nat.log2 data.length) 0 _ (by omega) (fft_base_inv data (Nat.log2 data.length)) t ht
  refine h.trans ?_
  unfold dft
  refine Finset.sum_congr rfl ?_
  intro j hj
  rw [Nat.sub_self, pow_zero, mul_one, reverseBits_zero_bits, add_zero,
    Nat.mod_eq_of_lt ht]
  congr 1
  unfold omegaC
  congr 1
  push_cast
  ring

/-- Witness for the FFT-DFT equivalence at the concrete series `[1, 2]`
(`N = 2`, bin `t = 1`). -/
theorem calculateFFT_matches_dft_witness :
    fftArray [(1 : ℝ), 2] 1 =
      dft (fun j => ((([(1 : ℝ), 2]).getD j 0 : ℝ) : ℂ))
        (2 ^ Nat.log2 ([(1 : ℝ), 2]).length) 1 :=
  calculateFFT_matches_dft [(1 : ℝ), 2] (by norm_num) 1 (by norm_num [Nat.log2])
